import Mathlib

/-!
Verification of the positional inverted-index search engine
(`src/indexing/tfidf_index.py`, `src/indexing/boolean_index.py`,
`src/query/query_processor.py`, `src/query/boolean_query_parser.py`).

Modelling conventions
=====================

* Python `dict` objects (which preserve insertion order, and keep an updated
  key at its original slot) are modelled as association lists
  `Dict α β := List (α × β)` together with `dfind?` / `dinsert` / `dgetD`.
* `collections.defaultdict` auto-vivification (`d[k]` inserting a default
  value on a missing key) is modelled explicitly by `ddGet`, which returns
  the possibly-extended dictionary; the query-path functions are replayed in
  a state-passing style (`searchII`, `taatII`, …) to settle the frame claim.
* The text analyzer `TextProcessor.preprocess` delegates to the external
  NLTK library (Porter stemmer, stopword corpus), and `math.log` is a
  transcendental float routine; both are kept as parameters of a `Cfg`
  record (`preprocess : String → List String`, `lg : ℚ → ℚ`).  Every claim
  below is settled uniformly in these parameters: none of the claims depends
  on particular token output or particular logarithm values.  Scores are
  modelled as exact rationals; float rounding is irrelevant to every claim
  settled here because each comparison is between syntactically identical
  arithmetic (same additions in the same order).
* `sorted(items, key=lambda x: x[1], reverse=True)` is Python's stable sort,
  descending in the score component: modelled by `List.insertionSort` with
  the relation `scoreGE a b := b.2 ≤ a.2` (inserting each earlier element
  before later equal-score elements, which is exactly stable descending
  order).
-/

attribute [local semireducible] Rat.add Rat.mul Rat.sub Rat.inv

namespace WebCrawler


/-- Association-list model of a Python `dict` (insertion-ordered). -/
abbrev Dict (α β : Type) := List (α × β)

/-- Model of `m[k]` lookup returning an `Option` (first, hence unique, binding). -/
def dfind? [DecidableEq α] (m : Dict α β) (k : α) : Option β :=
  (m.find? (fun p => p.1 = k)).map (·.2)

/-- Model of `k in m`. -/
def dcontains [DecidableEq α] (m : Dict α β) (k : α) : Bool :=
  (dfind? m k).isSome

/-- Model of `m.get(k, dflt)`. -/
def dgetD [DecidableEq α] (m : Dict α β) (k : α) (dflt : β) : β :=
  (dfind? m k).getD dflt

/-- Model of `m[k] = v`: update in place if the key exists (Python keeps the key at its
original position), otherwise append the new binding at the end. -/
def dinsert [DecidableEq α] (m : Dict α β) (k : α) (v : β) : Dict α β :=
  match m with
  | [] => [(k, v)]
  | (k', v') :: rest =>
    if k' = k then (k', v) :: rest else (k', v') :: dinsert rest k v

/-- The key list (`m.keys()`, in insertion order). -/
def dkeys (m : Dict α β) : List α := m.map Prod.fst

/-- Model of `defaultdict` access `d[k]`: returns the stored value, or inserts and
returns the default.  The second component is the dictionary after the
access (auto-vivification made explicit). -/
def ddGet [DecidableEq α] (m : Dict α β) (k : α) (dflt : β) : β × Dict α β :=
  match dfind? m k with
  | some v => (v, m)
  | none => (dflt, m ++ [(k, dflt)])

/-- Model of `doc_scores[d] += δ` on a `defaultdict(float)`. -/
def dadd [DecidableEq α] (m : Dict α ℚ) (k : α) (δ : ℚ) : Dict α ℚ :=
  dinsert m k (dgetD m k 0 + δ)

/-- Stable descending sort on the score component: Lean model of
`sorted(doc_scores.items(), key=lambda x: x[1], reverse=True)`. -/
def scoreGE (a b : α × ℚ) : Prop := b.2 ≤ a.2

instance : DecidableRel (@scoreGE α) := fun a b => inferInstanceAs (Decidable (b.2 ≤ a.2))

instance : IsTotal (α × ℚ) scoreGE := ⟨fun a b => le_total b.2 a.2⟩

instance : IsTrans (α × ℚ) scoreGE := ⟨fun _ _ _ h1 h2 => le_trans h2 h1⟩

def sortByScoreDesc (l : List (α × ℚ)) : List (α × ℚ) := l.insertionSort scoreGE

/-- Analyzer/scoring configuration.  `preprocess` stands for
`TextProcessor.preprocess` (external NLTK stemmer and stopword corpus) and
`lg` for `math.log`; all claims hold uniformly in both. -/
structure Cfg where
  preprocess : String → List String
  lg : ℚ → ℚ

/-- A stored document record (`{'text': ..., 'metadata': ...}`); the metadata
map is opaque to the engine and modelled as an opaque string. -/
structure DocRec where
  text : String
  metadata : String
deriving DecidableEq, Repr

/-- A ranked search result record. -/
structure Hit where
  doc_id : String
  text : String
  metadata : String
  score : ℚ
deriving DecidableEq, Repr

/-- Model of `TFIDFIndex` state (`src/indexing/tfidf_index.py`).  The `idf_cache`
field is omitted: it is cleared on every `add_document` and on `load`, and an
entry is only ever populated with the pure value `_calculate_idf` would
recompute from the current `doc_count`/`doc_freq`, so it is observationally
transparent.  The timing `metrics` dict is likewise not modelled. -/
structure TFIDFIndex where
  version : String
  index_name : String
  inverted_index : Dict String (Dict String (Nat × List Nat))
  documents : Dict String DocRec
  doc_lengths : Dict String Nat
  doc_freq : Dict String Nat
  doc_count : Nat
  term_count : Nat
deriving DecidableEq, Repr

def emptyTFIDF (version index_name : String) : TFIDFIndex :=
  { version := version, index_name := index_name, inverted_index := [],
    documents := [], doc_lengths := [], doc_freq := [], doc_count := 0, term_count := 0 }

/-- Model of `term_positions`: group token positions by term
(`for position, term in enumerate(tokens): term_positions[term].append(position)`). -/
def groupPositions (tokens : List String) : Dict String (List Nat) :=
  tokens.enum.foldl (fun acc pt => dinsert acc pt.2 (dgetD acc pt.2 [] ++ [pt.1])) []

/-- Model of `TFIDFIndex.add_document`.  Mirrors the source faithfully, including its
behaviour on a reused `doc_id`: the document record, length and the postings
of terms occurring in the new text are overwritten, but stale postings of the
old text survive, `doc_freq` is incremented again for every term of the new
text, and `doc_count` is incremented unconditionally. -/
def addDocument (P : Cfg) (idx : TFIDFIndex) (doc_id text metadata : String) : TFIDFIndex :=
  let documents := dinsert idx.documents doc_id ⟨text, metadata⟩
  let tokens := P.preprocess text
  let doc_lengths := dinsert idx.doc_lengths doc_id tokens.length
  let tps := groupPositions tokens
  let iidf := tps.foldl
    (fun (acc : Dict String (Dict String (Nat × List Nat)) × Dict String Nat) tp =>
      (dinsert acc.1 tp.1 (dinsert (dgetD acc.1 tp.1 []) doc_id (tp.2.length, tp.2)),
       dinsert acc.2 tp.1 (dgetD acc.2 tp.1 0 + 1)))
    (idx.inverted_index, idx.doc_freq)
  { version := idx.version, index_name := idx.index_name,
    inverted_index := iidf.1, documents := documents, doc_lengths := doc_lengths,
    doc_freq := iidf.2, doc_count := idx.doc_count + 1, term_count := iidf.1.length }

/-- Model of `TFIDFIndex._calculate_idf`, as the pure value its cache always holds. -/
def calcIdf (P : Cfg) (idx : TFIDFIndex) (term : String) : ℚ :=
  if dcontains idx.doc_freq term then
    P.lg ((idx.doc_count : ℚ) / ((dgetD idx.doc_freq term 0 : Nat) : ℚ))
  else 0

/-- Model of `TFIDFIndex._calculate_tfidf`. -/
def calcTfidf (tf : Nat) (doc_length : Nat) (idf : ℚ) : ℚ :=
  (if 0 < doc_length then (tf : ℚ) / (doc_length : ℚ) else 0) * idf

/-- The `doc_scores` accumulation loop of `TFIDFIndex.search`.  Note that the
loop runs over the analyzed query term *list*: a duplicated query term
contributes once per occurrence.  The source computes `idf` once per term
before the inner posting loop; since `_calculate_idf` is pure in the index
state, inlining `calcIdf` at each posting yields the same values. -/
def searchScores (P : Cfg) (idx : TFIDFIndex) (query_terms : List String) : Dict String ℚ :=
  query_terms.foldl
    (fun ds t =>
      if dcontains idx.inverted_index t then
        (dgetD idx.inverted_index t []).foldl
          (fun ds dv =>
            dadd ds dv.1 (calcTfidf dv.2.1 (dgetD idx.doc_lengths dv.1 0) (calcIdf P idx t)))
          ds
      else ds)
    []

/-- Model of `TFIDFIndex.search`. -/
def search (P : Cfg) (idx : TFIDFIndex) (query : String) (top_k : Nat) : List Hit :=
  let query_terms := P.preprocess query
  if query_terms.isEmpty then []
  else
    let ranked := (sortByScoreDesc (searchScores P idx query_terms)).take top_k
    ranked.map (fun ds =>
      ⟨ds.1, (dgetD idx.documents ds.1 ⟨"", ""⟩).text,
       (dgetD idx.documents ds.1 ⟨"", ""⟩).metadata, ds.2⟩)

/-! ## Boolean positional index (`src/indexing/boolean_index.py`) -/

/-- A phrase-search result record (carries the extra `phrase_position` key). -/
structure PHit where
  doc_id : String
  text : String
  metadata : String
  score : ℚ
  phrase_position : Nat
deriving DecidableEq, Repr

/-- Model of `BooleanIndex` state: `inverted_index` maps term → doc_id → position list. -/
structure BooleanIndex where
  version : String
  index_name : String
  inverted_index : Dict String (Dict String (List Nat))
  documents : Dict String DocRec
  doc_lengths : Dict String Nat
  doc_count : Nat
  term_count : Nat
deriving DecidableEq, Repr

def emptyBoolean (version index_name : String) : BooleanIndex :=
  { version := version, index_name := index_name, inverted_index := [],
    documents := [], doc_lengths := [], doc_count := 0, term_count := 0 }

/-- Model of `BooleanIndex.add_document`.  On a reused `doc_id` the position loop
*appends* to the surviving position lists
(`self.inverted_index[term][doc_id].append(position)`), so old positions are
kept and duplicated entries accumulate. -/
def addDocumentB (P : Cfg) (idx : BooleanIndex) (doc_id text metadata : String) : BooleanIndex :=
  let documents := dinsert idx.documents doc_id ⟨text, metadata⟩
  let tokens := P.preprocess text
  let doc_lengths := dinsert idx.doc_lengths doc_id tokens.length
  let ii := tokens.enum.foldl
    (fun ii pt =>
      let inner := dgetD ii pt.2 []
      dinsert ii pt.2 (dinsert inner doc_id (dgetD inner doc_id [] ++ [pt.1])))
    idx.inverted_index
  { version := idx.version, index_name := idx.index_name,
    inverted_index := ii, documents := documents, doc_lengths := doc_lengths,
    doc_count := idx.doc_count + 1, term_count := ii.length }

/-- The candidate-document loop shared by `BooleanIndex.search` and
`BooleanIndex.phrase_search`: intersect the key sets of every query term's
posting dict, returning `none` when some term is absent (the Python code
returns `[]` early in that case).  Python iterates the resulting `set` in an
unspecified order; the model keeps the insertion order of the first term's
posting dict, and every theorem stated about it is order-independent. -/
def candDocs (ii : Dict String (Dict String (List Nat))) : List String → Option (List String)
  | [] => none
  | t :: ts =>
    if dcontains ii t then go (dkeys (dgetD ii t [])) ts else none
where
  go (acc : List String) : List String → Option (List String)
    | [] => some acc
    | t :: ts =>
      if dcontains ii t then go (acc.filter (fun d => d ∈ dkeys (dgetD ii t []))) ts
      else none

/-- The inner check of `phrase_search`: for a candidate document `d` and a
start position `p` of the first phrase term, check that each later phrase
term appears at the consecutive position (`expected_pos = start_pos + i`,
translated to a running counter that starts at `p + 1`). -/
def checkFrom (ii : Dict String (Dict String (List Nat))) (d : String) :
    Nat → List String → Bool
  | _, [] => true
  | pos, t :: ts =>
    decide (pos ∈ dgetD (dgetD ii t []) d []) && checkFrom ii d (pos + 1) ts

/-- Model of `BooleanIndex.phrase_search`.  For each candidate document the position
loop breaks at the *first* matching start position (`List.find?`) and emits a
single hit with score `1.0`. -/
def phraseSearch (P : Cfg) (idx : BooleanIndex) (phrase : String) : List PHit :=
  let phrase_terms := P.preprocess phrase
  match phrase_terms with
  | [] => []
  | t0 :: rest =>
    match candDocs idx.inverted_index (t0 :: rest) with
    | none => []
    | some cands =>
      cands.filterMap (fun d =>
        ((dgetD (dgetD idx.inverted_index t0 []) d []).find?
            (fun p => checkFrom idx.inverted_index d (p + 1) rest)).map
          (fun p =>
            ⟨d, (dgetD idx.documents d ⟨"", ""⟩).text,
             (dgetD idx.documents d ⟨"", ""⟩).metadata, 1, p⟩))

/-! ## Query processor (`src/query/query_processor.py`), specialised to a
`TFIDFIndex` argument: `hasattr(self.index, 'inverted_index')` and
`hasattr(self.index, 'doc_freq')` hold, and every posting value is a
`(tf, positions)` tuple, so the `isinstance(data, tuple)` branch is taken. -/

/-- The TAAT score accumulator.  Identical to `searchScores` except that the
document length is read with `doc_lengths.get(doc_id, 1)` (default 1, where
`TFIDFIndex.search` indexes unconditionally). -/
def taatScores (P : Cfg) (idx : TFIDFIndex) (query_terms : List String) : Dict String ℚ :=
  query_terms.foldl
    (fun ds t =>
      if dcontains idx.inverted_index t then
        (dgetD idx.inverted_index t []).foldl
          (fun ds dv =>
            dadd ds dv.1 (calcTfidf dv.2.1 (dgetD idx.doc_lengths dv.1 1) (calcIdf P idx t)))
          ds
      else ds)
    []

/-- Model of `QueryProcessor.term_at_a_time`. -/
def taat (P : Cfg) (idx : TFIDFIndex) (query_terms : List String) (top_k : Nat) : List Hit :=
  let ranked := (sortByScoreDesc (taatScores P idx query_terms)).take top_k
  ranked.map (fun ds =>
    ⟨ds.1, (dgetD idx.documents ds.1 ⟨"", ""⟩).text,
     (dgetD idx.documents ds.1 ⟨"", ""⟩).metadata, ds.2⟩)

/-- Python `set.update` modelled as an insertion-ordered duplicate-free list. -/
def supdate (s : List String) (ks : List String) : List String :=
  ks.foldl (fun s k => if k ∈ s then s else s ++ [k]) s

/-- The DAAT candidate set: union of the posting-dict key sets of all present
query terms. -/
def daatCands (idx : TFIDFIndex) (query_terms : List String) : List String :=
  query_terms.foldl
    (fun s t =>
      if dcontains idx.inverted_index t then supdate s (dkeys (dgetD idx.inverted_index t []))
      else s)
    []

/-- The per-document score loop of `QueryProcessor.document_at_a_time`. -/
def daatDocScore (P : Cfg) (idx : TFIDFIndex) (query_terms : List String) (d : String) : ℚ :=
  let len := dgetD idx.doc_lengths d 1
  query_terms.foldl
    (fun sc t =>
      if dcontains idx.inverted_index t then
        match dfind? (dgetD idx.inverted_index t []) d with
        | some data => sc + calcTfidf data.1 len (calcIdf P idx t)
        | none => sc
      else sc)
    0

/-- The DAAT `doc_scores` dict.  Python iterates `candidate_docs` (a `set`)
in an unspecified, hash-dependent order; the model takes that order as an
explicit parameter `σ` (constrained to a permutation where a theorem needs
it). -/
def daatScores (P : Cfg) (σ : List String → List String) (idx : TFIDFIndex)
    (query_terms : List String) : Dict String ℚ :=
  (σ (daatCands idx query_terms)).map (fun d => (d, daatDocScore P idx query_terms d))

/-- Model of `QueryProcessor.document_at_a_time`. -/
def daat (P : Cfg) (σ : List String → List String) (idx : TFIDFIndex)
    (query_terms : List String) (top_k : Nat) : List Hit :=
  let ranked := (sortByScoreDesc (daatScores P σ idx query_terms)).take top_k
  ranked.map (fun ds =>
    ⟨ds.1, (dgetD idx.documents ds.1 ⟨"", ""⟩).text,
     (dgetD idx.documents ds.1 ⟨"", ""⟩).metadata, ds.2⟩)

/-- Whitespace tokeniser used by the concrete configuration `P0` (structural
recursion, so that concrete witnesses reduce inside the kernel). -/
def wsTokens (s : String) : List String :=
  go s.toList []
where
  go : List Char → List Char → List String
    | [], [] => []
    | [], cur => [String.mk cur.reverse]
    | c :: cs, cur =>
      if c = ' ' then
        match cur with
        | [] => go cs []
        | _ => String.mk cur.reverse :: go cs []
      else go cs (c :: cur)

/-- Concrete configuration used for witnesses and counterexamples: whitespace
tokenisation and the identity in place of `math.log`.  Every universally
quantified theorem below holds for all configurations, and every
counterexample exhibits a divergence that the real `math.log` also exhibits,
since only `ln 1 = 0` and `ln 2 ≠ 0` matter there. -/
def P0 : Cfg := ⟨wsTokens, id⟩

/-! ## Snapshot persistence (`TFIDFIndex.save` / `TFIDFIndex.load`) -/

/-- The record pickled by `TFIDFIndex.save` (the timing `metrics` entry is
not modelled). -/
structure TFIDFSnapshot where
  version : String
  index_name : String
  inverted_index : Dict String (Dict String (Nat × List Nat))
  documents : Dict String DocRec
  doc_lengths : Dict String Nat
  doc_freq : Dict String Nat
  doc_count : Nat
  term_count : Nat
deriving DecidableEq, Repr

/-- Model of `TFIDFIndex.save`.  The source pickles
`{'inverted_index': dict(self.inverted_index), ...}`.  `dict(...)` converts
only the *outer* `defaultdict`; the values remain the inner
`defaultdict(lambda: (0, []))` objects created by the outer default factory
on first access in `add_document`.  Pickling a `defaultdict` pickles its
`default_factory`, and a local lambda cannot be pickled, so `pickle.dump`
raises as soon as the index holds at least one term; only an index whose
`inverted_index` is empty (no inner dict was ever created) serializes.  This
is modelled by an `Except` value. -/
def save (idx : TFIDFIndex) : Except String TFIDFSnapshot :=
  if idx.inverted_index.isEmpty then
    Except.ok ⟨idx.version, idx.index_name, idx.inverted_index, idx.documents,
      idx.doc_lengths, idx.doc_freq, idx.doc_count, idx.term_count⟩
  else
    Except.error "pickle cannot serialize the local default_factory closure of the inner posting dicts"

/-- Model of `TFIDFIndex.load`: restores every pickled field (and clears the IDF
cache, which is not part of the model). -/
def load (s : TFIDFSnapshot) : TFIDFIndex :=
  ⟨s.version, s.index_name, s.inverted_index, s.documents, s.doc_lengths,
   s.doc_freq, s.doc_count, s.term_count⟩

/-! ## Boolean query parser (`src/query/boolean_query_parser.py`) -/

/-- Model of `QueryOperator`. -/
inductive QOp where
  | AND
  | OR
  | NOT
  | PHRASE
deriving DecidableEq, Repr

/-- Model of `QueryNode`: `operator`, `value`, `left`, `right` are all nullable in the
source (plain attributes initialised to `None`), hence the `Option` fields. -/
inductive QueryNode where
  | node (op : Option QOp) (value : Option String) (left : Option QueryNode)
      (right : Option QueryNode)

/-- A term leaf: `QueryNode(value=token)`. -/
def termNode (s : String) : QueryNode := QueryNode.node none (some s) none none

/-- Model of `token.startswith('"')` (first character is a quote). -/
def headIsQuote (tok : String) : Bool :=
  match tok.toList with
  | c :: _ => c = '"'
  | [] => false

/-- Model of `token.endswith('"')` (last character is a quote). -/
def lastIsQuote (tok : String) : Bool :=
  match tok.toList.getLast? with
  | some c => c = '"'
  | none => false

/-- Model of `token[1:-1]` (strip first and last character). -/
def stripEnds (tok : String) : String :=
  String.mk (tok.toList.drop 1).dropLast

/-- A character the regex word alternative `[^\s\(\)]+` accepts. -/
def isWordChar (c : Char) : Bool := ¬ (c.isWhitespace || c = '(' || c = ')')

/-- Scan forward for the closing quote of the regex alternative `"[^"]*"`:
returns the interior and the remainder after the closing quote. -/
def findQuote : List Char → Option (List Char × List Char)
  | [] => none
  | c :: cs =>
    if c = '"' then some ([], cs)
    else (findQuote cs).map (fun p => (c :: p.1, p.2))

/-- Model of `BooleanQueryParser._tokenize`: `re.findall` with the pattern
`"[^"]*"|AND|OR|NOT|\(|\)|[^\s\(\)]+`, i.e. at each position the first
alternative that matches wins (note that the bare literals `AND`/`OR`/`NOT`
match even as a prefix of a longer word, exactly as in the source pattern),
and positions where nothing matches (whitespace) are skipped.  Fuel is the
remaining character count; every step consumes at least one character. -/
def tokenizeGo : Nat → List Char → List String
  | 0, _ => []
  | _, [] => []
  | fuel + 1, c :: cs =>
    if c = '"' then
      match findQuote cs with
      | some (inside, rest) => String.mk ('"' :: (inside ++ ['"'])) :: tokenizeGo fuel rest
      | none =>
        let run := (c :: cs).takeWhile isWordChar
        String.mk run :: tokenizeGo fuel ((c :: cs).drop run.length)
    else if (c :: cs).take 3 = ['A', 'N', 'D'] then "AND" :: tokenizeGo fuel (cs.drop 2)
    else if (c :: cs).take 2 = ['O', 'R'] then "OR" :: tokenizeGo fuel (cs.drop 1)
    else if (c :: cs).take 3 = ['N', 'O', 'T'] then "NOT" :: tokenizeGo fuel (cs.drop 2)
    else if c = '(' then "(" :: tokenizeGo fuel cs
    else if c = ')' then ")" :: tokenizeGo fuel cs
    else if c.isWhitespace then tokenizeGo fuel cs
    else
      let run := (c :: cs).takeWhile isWordChar
      String.mk run :: tokenizeGo fuel ((c :: cs).drop run.length)

def tokenize (q : String) : List String :=
  tokenizeGo (q.toList.length + 1) q.toList

/-! Recursive-descent parser (`_parse_or` / `_parse_and` / `_parse_not` /
`_parse_primary`).  The token cursor is the unconsumed suffix of the token
list; fuel bounds the recursion depth (the source recursion always
terminates because every loop iteration and every nested call consumes a
token, and `parse` below supplies ample fuel).  Note what the source does on
malformed input: a missing operand makes `_parse_primary` return `None`
(which becomes a `None` child of the operator node), and a missing `)` is
silently ignored; there is no error path of any kind. -/
mutual

def parseOr : Nat → List String → Option QueryNode × List String
  | 0, ts => (none, ts)
  | fuel + 1, ts =>
    let l := parseAnd fuel ts
    parseOrLoop fuel l.1 l.2

def parseOrLoop : Nat → Option QueryNode → List String → Option QueryNode × List String
  | 0, l, ts => (l, ts)
  | fuel + 1, l, ts =>
    match ts with
    | "OR" :: rest =>
      let r := parseAnd fuel rest
      parseOrLoop fuel (some (QueryNode.node (some QOp.OR) none l r.1)) r.2
    | _ => (l, ts)

def parseAnd : Nat → List String → Option QueryNode × List String
  | 0, ts => (none, ts)
  | fuel + 1, ts =>
    let l := parseNot fuel ts
    parseAndLoop fuel l.1 l.2

def parseAndLoop : Nat → Option QueryNode → List String → Option QueryNode × List String
  | 0, l, ts => (l, ts)
  | fuel + 1, l, ts =>
    match ts with
    | "AND" :: rest =>
      let r := parseNot fuel rest
      parseAndLoop fuel (some (QueryNode.node (some QOp.AND) none l r.1)) r.2
    | _ => (l, ts)

def parseNot : Nat → List String → Option QueryNode × List String
  | 0, ts => (none, ts)
  | fuel + 1, ts =>
    match ts with
    | "NOT" :: rest =>
      let c := parseNot fuel rest
      (some (QueryNode.node (some QOp.NOT) none c.1 none), c.2)
    | _ => parsePrimary fuel ts

def parsePrimary : Nat → List String → Option QueryNode × List String
  | 0, ts => (none, ts)
  | _ + 1, [] => (none, [])
  | fuel + 1, tok :: rest =>
    if tok = "(" then
      let n := parseOr fuel rest
      match n.2 with
      | ")" :: ts₂ => (n.1, ts₂)
      | _ => (n.1, n.2)
    else if headIsQuote tok && lastIsQuote tok then
      (some (QueryNode.node (some QOp.PHRASE) (some (stripEnds tok)) none none), rest)
    else
      (some (termNode tok), rest)

end

/-- Model of `BooleanQueryParser.parse`: tokenize, return `None` on an empty token
list, otherwise parse an `Or` expression (leftover tokens are discarded). -/
def parse (q : String) : Option QueryNode :=
  let ts := tokenize q
  if ts.isEmpty then none else (parseOr (4 * ts.length + 8) ts).1

/-- Model of `BooleanQueryParser.evaluate`.  The index argument is duck-typed in the
source (`index.search`, `index.phrase_search`, `index.documents`); the model
takes the three capabilities as parameters.  A `TERM` leaf runs a ranked
search with the hard-coded `top_k=10000` and collects the doc_ids. -/
def evaluate (searchFn : String → Nat → List Hit) (phraseFn : String → List PHit)
    (documents : Dict String DocRec) : Option QueryNode → Finset String
  | none => ∅
  | some (QueryNode.node op value l r) =>
    match op with
    | none => ((searchFn (value.getD "") 10000).map Hit.doc_id).toFinset
    | some QOp.PHRASE => ((phraseFn (value.getD "")).map PHit.doc_id).toFinset
    | some QOp.NOT => (dkeys documents).toFinset \ evaluate searchFn phraseFn documents l
    | some QOp.AND =>
      evaluate searchFn phraseFn documents l ∩ evaluate searchFn phraseFn documents r
    | some QOp.OR =>
      evaluate searchFn phraseFn documents l ∪ evaluate searchFn phraseFn documents r

/-! ## State-passing replicas of the query paths

The in-memory posting tables are `defaultdict`s, so in principle every
subscript `d[k]` on a query path could create an empty entry as a side
effect.  The following `…II` functions replay each query path with every
`defaultdict` subscript routed through `ddGet` (which makes the
auto-vivification explicit) and return the posting table as it stands after
the query; the frame theorem proves it is always returned unchanged.  The
`dinsert` write-back in `ddGet2` reflects that the inner dict reached by
`d[term]` is a mutable object stored inside the outer dict. -/

/-- Model of `self.inverted_index[term][doc_id]` on a nested defaultdict. -/
def ddGet2 [DecidableEq α] [DecidableEq γ] (m : Dict α (Dict γ β)) (t : α) (d : γ)
    (dflt : β) : β × Dict α (Dict γ β) :=
  let pl := ddGet m t []
  let v := ddGet pl.1 d dflt
  (v.1, dinsert pl.2 t v.2)

/-- Model of `TFIDFIndex.search`, state-passing form. -/
def searchII (P : Cfg) (idx : TFIDFIndex) (query : String) (top_k : Nat) :
    List Hit × Dict String (Dict String (Nat × List Nat)) :=
  let query_terms := P.preprocess query
  if query_terms.isEmpty then ([], idx.inverted_index)
  else
    let dsii := query_terms.foldl
      (fun (acc : Dict String ℚ × Dict String (Dict String (Nat × List Nat))) t =>
        if dcontains acc.2 t then
          let pl := ddGet acc.2 t []
          (pl.1.foldl
            (fun ds dv =>
              dadd ds dv.1 (calcTfidf dv.2.1 (dgetD idx.doc_lengths dv.1 0) (calcIdf P idx t)))
            acc.1, pl.2)
        else acc)
      ([], idx.inverted_index)
    (((sortByScoreDesc dsii.1).take top_k).map (fun ds =>
      ⟨ds.1, (dgetD idx.documents ds.1 ⟨"", ""⟩).text,
       (dgetD idx.documents ds.1 ⟨"", ""⟩).metadata, ds.2⟩), dsii.2)

/-- Model of `QueryProcessor.term_at_a_time`, state-passing form. -/
def taatII (P : Cfg) (idx : TFIDFIndex) (query_terms : List String) (top_k : Nat) :
    List Hit × Dict String (Dict String (Nat × List Nat)) :=
  let dsii := query_terms.foldl
    (fun (acc : Dict String ℚ × Dict String (Dict String (Nat × List Nat))) t =>
      if dcontains acc.2 t then
        let pl := ddGet acc.2 t []
        (pl.1.foldl
          (fun ds dv =>
            dadd ds dv.1 (calcTfidf dv.2.1 (dgetD idx.doc_lengths dv.1 1) (calcIdf P idx t)))
          acc.1, pl.2)
      else acc)
    ([], idx.inverted_index)
  (((sortByScoreDesc dsii.1).take top_k).map (fun ds =>
    ⟨ds.1, (dgetD idx.documents ds.1 ⟨"", ""⟩).text,
     (dgetD idx.documents ds.1 ⟨"", ""⟩).metadata, ds.2⟩), dsii.2)

/-- Model of `QueryProcessor.document_at_a_time`, state-passing form. -/
def daatII (P : Cfg) (σ : List String → List String) (idx : TFIDFIndex)
    (query_terms : List String) (top_k : Nat) :
    List Hit × Dict String (Dict String (Nat × List Nat)) :=
  let cii := query_terms.foldl
    (fun (acc : List String × Dict String (Dict String (Nat × List Nat))) t =>
      if dcontains acc.2 t then
        let pl := ddGet acc.2 t []
        (supdate acc.1 (dkeys pl.1), pl.2)
      else acc)
    ([], idx.inverted_index)
  let scii := (σ cii.1).foldl
    (fun (acc : Dict String ℚ × Dict String (Dict String (Nat × List Nat))) d =>
      let len := dgetD idx.doc_lengths d 1
      let sii := query_terms.foldl
        (fun (a : ℚ × Dict String (Dict String (Nat × List Nat))) t =>
          if dcontains a.2 t then
            let pl := ddGet a.2 t []
            if dcontains pl.1 d then
              let v := ddGet2 pl.2 t d (0, [])
              (a.1 + calcTfidf v.1.1 len (calcIdf P idx t), v.2)
            else (a.1, pl.2)
          else a)
        (0, acc.2)
      (dinsert acc.1 d sii.1, sii.2))
    ([], cii.2)
  (((sortByScoreDesc scii.1).take top_k).map (fun ds =>
    ⟨ds.1, (dgetD idx.documents ds.1 ⟨"", ""⟩).text,
     (dgetD idx.documents ds.1 ⟨"", ""⟩).metadata, ds.2⟩), scii.2)

/-- The candidate intersection loop of `BooleanIndex.search` and
`BooleanIndex.phrase_search`, state-passing form (`none` = some query term
was absent and the function returns `[]` early). -/
def candLoopII (ii : Dict String (Dict String (List Nat))) :
    List String → Option (List String) × Dict String (Dict String (List Nat))
  | [] => (none, ii)
  | t :: ts =>
    if dcontains ii t then
      let pl := ddGet ii t []
      goII pl.2 (dkeys pl.1) ts
    else (none, ii)
where
  goII (ii : Dict String (Dict String (List Nat))) (acc : List String) :
      List String → Option (List String) × Dict String (Dict String (List Nat))
    | [] => (some acc, ii)
    | t :: ts =>
      if dcontains ii t then
        let pl := ddGet ii t []
        goII pl.2 (acc.filter (fun d => d ∈ dkeys pl.1)) ts
      else (none, ii)

/-- The consecutive-position check of `phrase_search`, state-passing form. -/
def checkFromII (d : String) : Dict String (Dict String (List Nat)) → Nat → List String →
    Bool × Dict String (Dict String (List Nat))
  | ii, _, [] => (true, ii)
  | ii, pos, t :: ts =>
    let v := ddGet2 ii t d []
    if pos ∈ v.1 then checkFromII d v.2 (pos + 1) ts else (false, v.2)

/-- The start-position scan of `phrase_search` (breaks at the first match),
state-passing form. -/
def scanII (d : String) (rest : List String) :
    Dict String (Dict String (List Nat)) → List Nat →
    Option Nat × Dict String (Dict String (List Nat))
  | ii, [] => (none, ii)
  | ii, p :: ps =>
    let c := checkFromII d ii (p + 1) rest
    if c.1 then (some p, c.2) else scanII d rest c.2 ps

/-- Model of `BooleanIndex.phrase_search`, state-passing form. -/
def phraseII (P : Cfg) (documents : Dict String DocRec)
    (ii : Dict String (Dict String (List Nat))) (phrase : String) :
    List PHit × Dict String (Dict String (List Nat)) :=
  let phrase_terms := P.preprocess phrase
  match phrase_terms with
  | [] => ([], ii)
  | t0 :: rest =>
    match candLoopII ii (t0 :: rest) with
    | (none, ii₁) => ([], ii₁)
    | (some cands, ii₁) =>
      cands.foldl
        (fun (acc : List PHit × Dict String (Dict String (List Nat))) d =>
          let fp := ddGet2 acc.2 t0 d []
          let m := scanII d rest fp.2 fp.1
          match m.1 with
          | some p =>
            (acc.1 ++ [⟨d, (dgetD documents d ⟨"", ""⟩).text,
               (dgetD documents d ⟨"", ""⟩).metadata, 1, p⟩], m.2)
          | none => (acc.1, m.2))
        ([], ii₁)

/-- Model of `BooleanIndex.search` (AND semantics over the query terms), state-passing
form.  Python materialises `list(result_docs)[:top_k]` from a `set` in an
unspecified order; the model keeps the insertion order of the intersection,
which is irrelevant to the frame property proved about this function. -/
def bsearchII (P : Cfg) (documents : Dict String DocRec)
    (ii : Dict String (Dict String (List Nat))) (query : String) (top_k : Nat) :
    List Hit × Dict String (Dict String (List Nat)) :=
  let query_terms := P.preprocess query
  if query_terms.isEmpty then ([], ii)
  else
    match candLoopII ii query_terms with
    | (none, ii₁) => ([], ii₁)
    | (some cands, ii₁) =>
      ((cands.take top_k).map (fun d =>
        ⟨d, (dgetD documents d ⟨"", ""⟩).text,
         (dgetD documents d ⟨"", ""⟩).metadata, 1⟩), ii₁)

/-- Model of `BooleanQueryParser.evaluate` against a `BooleanIndex` (as in
`example_usage.py` / `main.py`), state-passing form. -/
def evaluateII (P : Cfg) (documents : Dict String DocRec) :
    Option QueryNode → Dict String (Dict String (List Nat)) →
    Finset String × Dict String (Dict String (List Nat))
  | none, ii => (∅, ii)
  | some (QueryNode.node op value l r), ii =>
    match op with
    | none =>
      let s := bsearchII P documents ii (value.getD "") 10000
      (((s.1.map Hit.doc_id).toFinset), s.2)
    | some QOp.PHRASE =>
      let s := phraseII P documents ii (value.getD "")
      (((s.1.map PHit.doc_id).toFinset), s.2)
    | some QOp.NOT =>
      let e := evaluateII P documents l ii
      ((dkeys documents).toFinset \ e.1, e.2)
    | some QOp.AND =>
      let e₁ := evaluateII P documents l ii
      let e₂ := evaluateII P documents r e₁.2
      (e₁.1 ∩ e₂.1, e₂.2)
    | some QOp.OR =>
      let e₁ := evaluateII P documents l ii
      let e₂ := evaluateII P documents r e₁.2
      (e₁.1 ∪ e₂.1, e₂.2)

/-! ## Shared helper definitions for the claim statements -/

/-- Code-point lexicographic string order (Python's `<` on `str`), written
over the character lists so that it evaluates structurally. -/
def strLtB (a b : String) : Bool :=
  go a.toList b.toList
where
  go : List Char → List Char → Bool
    | [], [] => false
    | [], _ :: _ => true
    | _ :: _, [] => false
    | c :: cs, d :: ds => if c < d then true else if d < c then false else go cs ds

/-- Model of "Any two results with equal score appear in ascending `doc_id` order". -/
def tiesAscending : List Hit → Bool
  | [] => true
  | h :: t =>
    t.all (fun h2 => !(decide (h.score = h2.score)) || strLtB h.doc_id h2.doc_id)
      && tiesAscending t

/-- A two-document index in which both documents carry the same score for the
query term `common`: `d2` is inserted before `d1`. -/
def idxTie : TFIDFIndex :=
  addDocument P0 (addDocument P0 (emptyTFIDF "v1.0" "tfidf_index") "d2" "common x" "")
    "d1" "common y" ""

/-- A two-document index over distinct vocabularies (so that `idf` of `a` is
nonzero). -/
def idxAB : TFIDFIndex :=
  addDocument P0 (addDocument P0 (emptyTFIDF "v1.0" "tfidf_index") "d1" "a" "") "d2" "b" ""

/-- The index obtained by re-adding `doc_id` `d` with new text `banana` after
first indexing it with text `apple`. -/
def idxReadd : TFIDFIndex :=
  addDocument P0 (addDocument P0 (emptyTFIDF "v1.0" "tfidf_index") "d" "apple" "") "d" "banana" ""

/-- Well-formedness of a nested posting table: every inner dict has
duplicate-free keys (automatic for a real Python dict). -/
def WFT (idx : TFIDFIndex) : Prop :=
  ∀ t ∈ dkeys idx.inverted_index, (dkeys (dgetD idx.inverted_index t [])).Nodup

instance (idx : TFIDFIndex) : Decidable (WFT idx) := by
  unfold WFT
  exact List.decidableBAll _ _

/-- Case split on an optional posting (shared so that statements unify
syntactically). -/
def optContrib {γ : Type} (o : Option γ) (f : γ → ℚ) : ℚ :=
  match o with
  | some v => f v
  | none => 0

/-- The per-term TF-IDF contribution of query term `t` to document `d`, as
accumulated by `TFIDFIndex.search` (document length read by direct indexing,
modelled with default 0). -/
def contribS (P : Cfg) (idx : TFIDFIndex) (t d : String) : ℚ :=
  if dcontains idx.inverted_index t then
    optContrib (dfind? (dgetD idx.inverted_index t []) d)
      (fun v => calcTfidf v.1 (dgetD idx.doc_lengths d 0) (calcIdf P idx t))
  else 0

/-- The per-term TF-IDF contribution as accumulated by TAAT and DAAT
(document length read with `doc_lengths.get(doc_id, 1)`). -/
def contribT (P : Cfg) (idx : TFIDFIndex) (t d : String) : ℚ :=
  if dcontains idx.inverted_index t then
    optContrib (dfind? (dgetD idx.inverted_index t []) d)
      (fun v => calcTfidf v.1 (dgetD idx.doc_lengths d 1) (calcIdf P idx t))
  else 0

/-- The invariant tying `doc_freq` to posting-list sizes, relative to the set
of `doc_id`s ever inserted. -/
def InvDF (idx : TFIDFIndex) (seen : List String) : Prop :=
  (∀ t, dgetD idx.doc_freq t 0 = (dgetD idx.inverted_index t []).length)
  ∧ (∀ t d, d ∈ dkeys (dgetD idx.inverted_index t []) → d ∈ seen)

/-- Build an index from a document list (ingest pipeline). -/
def buildIndex (P : Cfg) (docs : List (String × String × String)) : TFIDFIndex :=
  docs.foldl (fun i dd => addDocument P i dd.1 dd.2.1 dd.2.2)
    (emptyTFIDF "v1.0" "tfidf_index")

/-- The boolean index used by the phrase-search witness. -/
def bIdx : BooleanIndex :=
  addDocumentB P0 (addDocumentB P0 (emptyBoolean "v1.0" "boolean_index")
    "d1" "x a b y" "") "d2" "b a" ""

/-- A document id of length-`n` (`'a'` repeated), injective in `n`. -/
def strOfLen (n : Nat) : String := String.mk (List.replicate n 'a')

/-- A 10001-document posting list for the single term `t`. -/
def bigPostings : Dict String (Nat × List Nat) :=
  (List.range 10001).map (fun n => (strOfLen n, (1, [0])))

/-- An index state in which term `t` occurs in 10001 documents. -/
def bigIdx : TFIDFIndex :=
  { version := "v1.0", index_name := "tfidf_index",
    inverted_index := [("t", bigPostings)], documents := [], doc_lengths := [],
    doc_freq := [("t", 10001)], doc_count := 10001, term_count := 1 }

section DictLemmas

variable [DecidableEq α]

theorem dfind?_nil (k : α) : dfind? ([] : Dict α β) k = none := rfl

theorem dfind?_cons (k' : α) (v' : β) (rest : Dict α β) (k : α) :
    dfind? ((k', v') :: rest) k = if k' = k then some v' else dfind? rest k := by
  by_cases h : k' = k <;> simp [dfind?, List.find?, h]

theorem dinsert_cons (k' : α) (v' : β) (rest : Dict α β) (k : α) (v : β) :
    dinsert ((k', v') :: rest) k v =
      if k' = k then (k', v) :: rest else (k', v') :: dinsert rest k v := rfl

theorem dfind?_dinsert_self (m : Dict α β) (k : α) (v : β) :
    dfind? (dinsert m k v) k = some v := by
  induction m with
  | nil => simp [dinsert, dfind?_cons]
  | cons p rest ih =>
    obtain ⟨k', v'⟩ := p
    rw [dinsert_cons]
    by_cases h : k' = k
    · simp [h, dfind?_cons]
    · simp [h, dfind?_cons, ih]

theorem dfind?_dinsert_ne (m : Dict α β) (k k' : α) (v : β) (h : k ≠ k') :
    dfind? (dinsert m k v) k' = dfind? m k' := by
  induction m with
  | nil => simp [dinsert, dfind?_cons, h, dfind?_nil]
  | cons p rest ih =>
    obtain ⟨a, b⟩ := p
    rw [dinsert_cons]
    by_cases hp : a = k
    · subst hp
      simp [dfind?_cons, h]
    · rw [if_neg hp]
      by_cases hq : a = k'
      · subst hq
        rw [dfind?_cons, dfind?_cons, if_pos rfl, if_pos rfl]
      · rw [dfind?_cons, dfind?_cons, if_neg hq, if_neg hq, ih]

theorem dinsert_self_of_find (m : Dict α β) (k : α) (v : β)
    (h : dfind? m k = some v) : dinsert m k v = m := by
  induction m with
  | nil => simp [dfind?_nil] at h
  | cons p rest ih =>
    obtain ⟨a, b⟩ := p
    rw [dfind?_cons] at h
    rw [dinsert_cons]
    by_cases hp : a = k
    · simp only [hp, if_pos rfl] at h
      cases h
      simp [hp]
    · simp only [hp, if_false] at h
      simp [hp, ih h]

theorem dkeys_nil : dkeys ([] : Dict α β) = [] := rfl

theorem dkeys_cons (p : α × β) (rest : Dict α β) :
    dkeys (p :: rest) = p.1 :: dkeys rest := rfl

theorem dcontains_cons (k' : α) (v' : β) (rest : Dict α β) (k : α) :
    dcontains ((k', v') :: rest) k = (if k' = k then true else dcontains rest k) := by
  rw [dcontains, dfind?_cons]
  by_cases h : k' = k <;> simp [h, dcontains]

theorem dkeys_dinsert (m : Dict α β) (k : α) (v : β) :
    dkeys (dinsert m k v) = if dcontains m k then dkeys m else dkeys m ++ [k] := by
  induction m with
  | nil => simp [dinsert, dkeys, dcontains, dfind?_nil]
  | cons p rest ih =>
    obtain ⟨a, b⟩ := p
    rw [dinsert_cons, dcontains_cons]
    by_cases hp : a = k
    · simp [hp, dkeys_cons]
    · rw [if_neg hp, if_neg hp, dkeys_cons, dkeys_cons, ih]
      by_cases hc : dcontains rest k = true
      · simp [hc]
      · simp only [Bool.not_eq_true] at hc
        simp [hc]

theorem mem_dkeys_iff_dcontains (m : Dict α β) (k : α) :
    k ∈ dkeys m ↔ dcontains m k = true := by
  induction m with
  | nil => simp [dkeys, dcontains, dfind?_nil]
  | cons p rest ih =>
    obtain ⟨a, b⟩ := p
    rw [dkeys_cons, List.mem_cons, dcontains_cons]
    by_cases hp : a = k
    · simp [hp]
    · have : ¬ (k = a) := fun h => hp h.symm
      simp [hp, this, ih]

theorem dcontains_eq_false_iff (m : Dict α β) (k : α) :
    dcontains m k = false ↔ dfind? m k = none := by
  rw [dcontains]
  cases dfind? m k <;> simp

/-- Keys of a dict built by repeated `dinsert` stay duplicate-free. -/
theorem nodup_dkeys_dinsert (m : Dict α β) (k : α) (v : β)
    (h : (dkeys m).Nodup) : (dkeys (dinsert m k v)).Nodup := by
  rw [dkeys_dinsert]
  by_cases hc : dcontains m k = true
  · simpa [hc]
  · have hk : k ∉ dkeys m := fun hmem => hc ((mem_dkeys_iff_dcontains m k).mp hmem)
    simp only [Bool.not_eq_true] at hc
    rw [if_neg (by simp [hc])]
    rw [List.nodup_append]
    refine ⟨h, List.nodup_singleton k, ?_⟩
    intro a ha hak
    rw [List.mem_singleton] at hak
    exact hk (hak ▸ ha)

theorem dgetD_dadd (m : Dict α ℚ) (k x : α) (δ : ℚ) :
    dgetD (dadd m k δ) x 0 = dgetD m x 0 + (if x = k then δ else 0) := by
  by_cases h : x = k
  · subst h
    simp [dadd, dgetD, dfind?_dinsert_self]
  · have h' : k ≠ x := fun hh => h hh.symm
    simp [dadd, dgetD, dfind?_dinsert_ne _ _ _ _ h', h]

theorem dcontains_dadd (m : Dict α ℚ) (k x : α) (δ : ℚ) :
    dcontains (dadd m k δ) x = (dcontains m x || x = k) := by
  by_cases h : x = k
  · subst h
    simp [dadd, dcontains, dfind?_dinsert_self]
  · have h' : k ≠ x := fun hh => h hh.symm
    simp [dadd, dcontains, dfind?_dinsert_ne _ _ _ _ h', h]

theorem nodup_dkeys_dadd (m : Dict α ℚ) (k : α) (δ : ℚ)
    (h : (dkeys m).Nodup) : (dkeys (dadd m k δ)).Nodup :=
  nodup_dkeys_dinsert _ _ _ h

/-- In a dict with duplicate-free keys, membership of a pair is the same as a
successful lookup. -/
theorem mem_iff_dfind?_of_nodup (m : Dict α β) (hm : (dkeys m).Nodup)
    (k : α) (v : β) : (k, v) ∈ m ↔ dfind? m k = some v := by
  induction m with
  | nil => simp [dfind?_nil]
  | cons p rest ih =>
    obtain ⟨a, b⟩ := p
    rw [dkeys_cons, List.nodup_cons] at hm
    rw [List.mem_cons, dfind?_cons]
    by_cases hp : a = k
    · subst hp
      rw [if_pos rfl]
      constructor
      · rintro (h | h)
        · rw [Prod.mk.injEq] at h
          rw [h.2]
        · exact absurd (List.mem_map_of_mem Prod.fst h) hm.1
      · intro h
        cases h
        exact Or.inl rfl
    · have hne : ¬ ((k, v) = (a, b)) := by
        intro h
        rw [Prod.mk.injEq] at h
        exact hp h.1.symm
      simp [hp, hne, ih hm.2]

end DictLemmas

theorem sortByScoreDesc_perm (l : List (α × ℚ)) : List.Perm (sortByScoreDesc l) l :=
  List.perm_insertionSort _ l

theorem sortByScoreDesc_sorted (l : List (α × ℚ)) :
    List.Pairwise scoreGE (sortByScoreDesc l) :=
  List.sorted_insertionSort _ l

/-! ## Score-accumulator lemmas -/

theorem mem_dkeys_of_dfind? [DecidableEq α] (m : Dict α β) (x : α) (v : β)
    (h : dfind? m x = some v) : x ∈ dkeys m := by
  rw [mem_dkeys_iff_dcontains, dcontains, h]
  rfl

theorem dfind?_eq_none_of_not_mem [DecidableEq α] (m : Dict α β) (x : α)
    (h : x ∉ dkeys m) : dfind? m x = none := by
  cases hf : dfind? m x with
  | none => rfl
  | some v => exact absurd (mem_dkeys_of_dfind? m x v hf) h

theorem WFT_inner {idx : TFIDFIndex} (hw : WFT idx) (t : String) :
    (dkeys (dgetD idx.inverted_index t [])).Nodup := by
  by_cases hc : dcontains idx.inverted_index t = true
  · exact hw t ((mem_dkeys_iff_dcontains _ _).mpr hc)
  · have hn : dfind? idx.inverted_index t = none :=
      (dcontains_eq_false_iff _ _).mp (by simpa using hc)
    simp [dgetD, hn, dkeys]

theorem optContrib_some {γ : Type} (v : γ) (f : γ → ℚ) :
    optContrib (some v) f = f v := rfl

theorem optContrib_none {γ : Type} (f : γ → ℚ) :
    optContrib (none : Option γ) f = 0 := rfl

/-- Accumulating one posting list into the score dict: the effect on a
single lookup. -/
theorem foldl_dadd_dgetD {β : Type} (g : String → β → ℚ) (x : String) :
    ∀ (pl : Dict String β) (ds : Dict String ℚ), (dkeys pl).Nodup →
      dgetD (pl.foldl (fun ds dv => dadd ds dv.1 (g dv.1 dv.2)) ds) x 0 =
        dgetD ds x 0 + optContrib (dfind? pl x) (g x)
  | [], ds, _ => by simp [dfind?_nil, optContrib_none]
  | (d, v) :: rest, ds, hpl => by
    rw [dkeys_cons, List.nodup_cons] at hpl
    rw [List.foldl_cons, dfind?_cons, foldl_dadd_dgetD g x rest _ hpl.2, dgetD_dadd]
    by_cases h : d = x
    · subst h
      rw [dfind?_eq_none_of_not_mem rest d hpl.1]
      simp [optContrib, add_comm]
    · have h' : ¬ (x = d) := fun hh => h hh.symm
      simp [h, h']

theorem foldl_dadd_dcontains {β : Type} (g : String → β → ℚ) (x : String) :
    ∀ (pl : Dict String β) (ds : Dict String ℚ),
      dcontains (pl.foldl (fun ds dv => dadd ds dv.1 (g dv.1 dv.2)) ds) x =
        (dcontains ds x || dcontains pl x)
  | [], ds => by simp [dcontains, dfind?_nil]
  | (d, v) :: rest, ds => by
    rw [List.foldl_cons, foldl_dadd_dcontains g x rest _, dcontains_dadd, dcontains_cons]
    by_cases h : d = x
    · subst h
      simp
    · have h' : ¬ (x = d) := fun hh => h hh.symm
      simp [h, h']

theorem foldl_dadd_nodup {β : Type} (g : String → β → ℚ) :
    ∀ (pl : Dict String β) (ds : Dict String ℚ), (dkeys ds).Nodup →
      (dkeys (pl.foldl (fun ds dv => dadd ds dv.1 (g dv.1 dv.2)) ds)).Nodup
  | [], _, h => h
  | (d, v) :: rest, ds, h =>
    foldl_dadd_nodup g rest _ (nodup_dkeys_dadd _ _ _ h)

/-- The per-term score loop over the query-term list: lookup
characterisation (the shape shared by `TFIDFIndex.search` and TAAT). -/
theorem scoresFoldl_dgetD {γ : Type} (ii : Dict String (Dict String γ))
    (hw : ∀ t, (dkeys (dgetD ii t [])).Nodup)
    (f : String → String → γ → ℚ) (x : String) :
    ∀ (terms : List String) (ds : Dict String ℚ),
      dgetD (terms.foldl (fun ds t => if dcontains ii t then
          (dgetD ii t []).foldl (fun ds dv => dadd ds dv.1 (f t dv.1 dv.2)) ds else ds) ds) x 0
        = dgetD ds x 0 + (terms.map (fun t => if dcontains ii t then
            optContrib (dfind? (dgetD ii t []) x) (f t x)
          else 0)).sum
  | [], ds => by simp
  | t :: terms, ds => by
    rw [List.foldl_cons, List.map_cons, List.sum_cons, scoresFoldl_dgetD ii hw f x terms _]
    by_cases h : dcontains ii t = true
    · rw [if_pos h, if_pos h, foldl_dadd_dgetD (fun d v => f t d v) x _ ds (hw t)]
      ring
    · have h' : dcontains ii t = false := by simpa using h
      rw [if_neg (by simp [h']), if_neg (by simp [h'])]
      ring

theorem scoresFoldl_dcontains {γ : Type} (ii : Dict String (Dict String γ))
    (f : String → String → γ → ℚ) (x : String) :
    ∀ (terms : List String) (ds : Dict String ℚ),
      dcontains (terms.foldl (fun ds t => if dcontains ii t then
          (dgetD ii t []).foldl (fun ds dv => dadd ds dv.1 (f t dv.1 dv.2)) ds else ds) ds) x
        = (dcontains ds x ||
            terms.any (fun t => dcontains ii t && dcontains (dgetD ii t []) x))
  | [], ds => by simp
  | t :: terms, ds => by
    rw [List.foldl_cons, List.any_cons, scoresFoldl_dcontains ii f x terms _]
    by_cases h : dcontains ii t = true
    · rw [if_pos h, foldl_dadd_dcontains (fun d v => f t d v) x _ ds, h]
      simp [Bool.or_assoc]
    · have h' : dcontains ii t = false := by simpa using h
      rw [if_neg (by simp [h']), h']
      simp

theorem scoresFoldl_nodup {γ : Type} (ii : Dict String (Dict String γ))
    (f : String → String → γ → ℚ) :
    ∀ (terms : List String) (ds : Dict String ℚ), (dkeys ds).Nodup →
      (dkeys (terms.foldl (fun ds t => if dcontains ii t then
          (dgetD ii t []).foldl (fun ds dv => dadd ds dv.1 (f t dv.1 dv.2)) ds else ds) ds)).Nodup
  | [], _, h => h
  | t :: terms, ds, h => by
    rw [List.foldl_cons]
    refine scoresFoldl_nodup ii f terms _ ?_
    by_cases hc : dcontains ii t = true
    · rw [if_pos hc]
      exact foldl_dadd_nodup _ _ _ h
    · rw [if_neg (by simpa using hc)]
      exact h

theorem searchScores_dgetD (P : Cfg) (idx : TFIDFIndex) (hw : WFT idx)
    (terms : List String) (x : String) :
    dgetD (searchScores P idx terms) x 0 =
      (terms.map (fun t => contribS P idx t x)).sum := by
  have h := scoresFoldl_dgetD idx.inverted_index (WFT_inner hw)
    (fun t d v => calcTfidf v.1 (dgetD idx.doc_lengths d 0) (calcIdf P idx t)) x terms []
  rw [searchScores]
  rw [h]
  have h0 : dgetD ([] : Dict String ℚ) x 0 = 0 := rfl
  rw [h0, zero_add]
  congr 1

theorem searchScores_nodup (P : Cfg) (idx : TFIDFIndex) (terms : List String) :
    (dkeys (searchScores P idx terms)).Nodup := by
  rw [searchScores]
  exact scoresFoldl_nodup idx.inverted_index
    (fun t d v => calcTfidf v.1 (dgetD idx.doc_lengths d 0) (calcIdf P idx t))
    terms [] List.nodup_nil

theorem taatScores_dgetD (P : Cfg) (idx : TFIDFIndex) (hw : WFT idx)
    (terms : List String) (x : String) :
    dgetD (taatScores P idx terms) x 0 =
      (terms.map (fun t => contribT P idx t x)).sum := by
  have h := scoresFoldl_dgetD idx.inverted_index (WFT_inner hw)
    (fun t d v => calcTfidf v.1 (dgetD idx.doc_lengths d 1) (calcIdf P idx t)) x terms []
  rw [taatScores]
  rw [h]
  have h0 : dgetD ([] : Dict String ℚ) x 0 = 0 := rfl
  rw [h0, zero_add]
  congr 1

theorem taatScores_dcontains (P : Cfg) (idx : TFIDFIndex) (terms : List String) (x : String) :
    dcontains (taatScores P idx terms) x =
      terms.any (fun t => dcontains idx.inverted_index t
        && dcontains (dgetD idx.inverted_index t []) x) := by
  have h := scoresFoldl_dcontains idx.inverted_index
    (fun t d v => calcTfidf v.1 (dgetD idx.doc_lengths d 1) (calcIdf P idx t)) x terms []
  rw [taatScores]
  rw [h]
  have h0 : dcontains ([] : Dict String ℚ) x = false := rfl
  rw [h0, Bool.false_or]

theorem taatScores_nodup (P : Cfg) (idx : TFIDFIndex) (terms : List String) :
    (dkeys (taatScores P idx terms)).Nodup := by
  rw [taatScores]
  exact scoresFoldl_nodup idx.inverted_index
    (fun t d v => calcTfidf v.1 (dgetD idx.doc_lengths d 1) (calcIdf P idx t))
    terms [] List.nodup_nil

/-- Hits of a ranked search are entries of the score accumulator. -/
theorem mem_search_scores (P : Cfg) (idx : TFIDFIndex) (q : String) (k : Nat)
    (h : Hit) (hm : h ∈ search P idx q k) :
    (h.doc_id, h.score) ∈ searchScores P idx (P.preprocess q) := by
  rw [search] at hm
  by_cases he : (P.preprocess q).isEmpty
  · rw [if_pos he] at hm
    exact absurd hm (List.not_mem_nil h)
  · rw [if_neg he] at hm
    obtain ⟨ds, hds, hmk⟩ := List.mem_map.mp hm
    have : ds ∈ sortByScoreDesc (searchScores P idx (P.preprocess q)) :=
      (List.take_sublist _ _).mem hds
    have hmem := (sortByScoreDesc_perm _).mem_iff.mp this
    have h1 : h.doc_id = ds.1 := by rw [← hmk]
    have h2 : h.score = ds.2 := by rw [← hmk]
    rw [h1, h2]
    exact hmem

/-! ## Claim theorems -/

/-- C2 (code bug): re-adding an existing `doc_id` does **not** replace the
prior version.  After `add_document("d", "apple")` followed by
`add_document("d", "banana")`, a ranked search for `apple` still returns `d`
(the stale posting of the superseded text is visible), the document count
has advanced to 2 for a single document, and in the `BooleanIndex` the
position list of a re-added term accumulates the positions of both versions
(`[0, 0]` for the twice-added single-token text `a`). -/
theorem stale_postings_after_reindex :
    (search P0 idxReadd "apple" 10).map Hit.doc_id = ["d"]
    ∧ idxReadd.doc_count = 2
    ∧ dgetD (dgetD (addDocumentB P0 (addDocumentB P0
        (emptyBoolean "v1.0" "boolean_index") "d" "a" "") "d" "a" "").inverted_index
        "a" []) "d" [] = [0, 0] := by
  refine ⟨by decide, by decide, by decide⟩

/-- C8 (code bug): `TFIDFIndex.save` fails on every index holding at least
one term, because the pickled record contains the inner
`defaultdict(lambda: (0, []))` posting dicts whose local `default_factory`
closure cannot be pickled.  The claimed snapshot round-trip is therefore
unattainable for any non-trivial insert sequence. -/
theorem save_fails_on_nonempty_index :
    save (addDocument P0 (emptyTFIDF "v1.0" "tfidf_index") "d1" "hello world" "") =
      Except.error "pickle cannot serialize the local default_factory closure of the inner posting dicts"
    ∧ ∀ idx : TFIDFIndex, (save idx).toOption.isSome = idx.inverted_index.isEmpty := by
  refine ⟨rfl, fun idx => ?_⟩
  rw [save]
  by_cases h : idx.inverted_index.isEmpty = true
  · rw [if_pos h, h]
    rfl
  · rw [if_neg h]
    simp only [Bool.not_eq_true] at h
    rw [h]
    rfl

/-- C5 (counterexample): parsing the unmatched-parenthesis query `( apple`
does not fail with a `ParseError` carrying a position — no error of any kind
is raised — and a perfectly ordinary tree (the bare term) is returned with
the missing `)` silently ignored. -/
theorem unmatched_paren_returns_tree :
    parse "( apple" = some (termNode "apple") := rfl

/-- C5 (amended): the parser has no error path at all.  A dangling operator
yields a partial tree whose missing operand is `None` (`apple AND`, bare
`NOT`), a bare `(` yields `None` (which `evaluate` silently maps to the
empty result set), and the only `None` result for the full parse arises from
an empty token list. -/
theorem malformed_queries_silently_parsed :
    parse "apple AND" =
      some (QueryNode.node (some QOp.AND) none (some (termNode "apple")) none)
    ∧ parse "NOT" = some (QueryNode.node (some QOp.NOT) none none none)
    ∧ parse "(" = none
    ∧ (∀ (s : String → Nat → List Hit) (ph : String → List PHit)
        (docs : Dict String DocRec), evaluate s ph docs none = ∅) :=
  ⟨rfl, rfl, rfl, fun _ _ _ => by rw [evaluate]⟩

/-- C3 (counterexample): two documents with identical scores for the query
term come back in posting-list insertion order (`d2` was indexed before
`d1`), not in ascending `doc_id` order. -/
theorem search_ties_not_docid_ordered :
    tiesAscending (search P0 idxTie "common" 10) = false
    ∧ (search P0 idxTie "common" 10).map Hit.doc_id = ["d2", "d1"]
    ∧ (search P0 idxTie "common" 10).map Hit.score = [1/2, 1/2] := by
  refine ⟨by decide, by decide, by decide⟩

/-- C3 (amended): the ranked result list is sorted by non-increasing score;
the relative order of equal-score results is the score-accumulator insertion
order (document indexing order), not ascending `doc_id`. -/
theorem search_sorted_by_score (P : Cfg) (idx : TFIDFIndex) (q : String) (k : Nat) :
    List.Pairwise (fun a b => b.score ≤ a.score) (search P idx q k) := by
  rw [search]
  by_cases h : (P.preprocess q).isEmpty
  · simp [h]
  · rw [if_neg h]
    have hs : List.Pairwise scoreGE
        ((sortByScoreDesc (searchScores P idx (P.preprocess q))).take k) :=
      (sortByScoreDesc_sorted _).sublist (List.take_sublist _ _)
    rw [List.pairwise_map]
    exact hs.imp (fun hab => hab)

/-- C4 (counterexample): the query loop iterates the analyzed term *list*,
so a duplicated query term contributes once per occurrence: `search("a a")`
returns the doubled score, not the same score as `search("a")`. -/
theorem duplicate_query_terms_double_score :
    (search P0 idxAB "a a" 10).map Hit.score = [4]
    ∧ (search P0 idxAB "a" 10).map Hit.score = [2]
    ∧ search P0 idxAB "a a" 10 ≠ search P0 idxAB "a" 10 :=
  ⟨by decide, by decide, by decide⟩

/-- C4 (amended): the ranked score of each returned document equals the sum
over the query term **occurrences** (the analyzed list, duplicates included)
of `tfn(t,d) * idf(t)` — bag semantics on the query side, not the claimed
set semantics. -/
theorem search_score_is_bag_sum (P : Cfg) (idx : TFIDFIndex) (q : String) (k : Nat)
    (hw : WFT idx) :
    ∀ h ∈ search P idx q k,
      h.score = ((P.preprocess q).map (fun t => contribS P idx t h.doc_id)).sum := by
  intro h hm
  have hmem := mem_search_scores P idx q k h hm
  have hnd := searchScores_nodup P idx (P.preprocess q)
  have hf := (mem_iff_dfind?_of_nodup _ hnd _ _).mp hmem
  have hg : dgetD (searchScores P idx (P.preprocess q)) h.doc_id 0 = h.score := by
    rw [dgetD, hf]
    rfl
  rw [← hg, searchScores_dgetD P idx hw]

/-- Witness for `search_score_is_bag_sum` at a concrete input. -/
theorem search_score_is_bag_sum_witness :
    WFT idxAB
    ∧ (Hit.mk "d1" "a" "" 4) ∈ search P0 idxAB "a a" 10
    ∧ (Hit.mk "d1" "a" "" 4).score =
        ((P0.preprocess "a a").map
          (fun t => contribS P0 idxAB t (Hit.mk "d1" "a" "" 4).doc_id)).sum :=
  ⟨by decide, by decide,
    search_score_is_bag_sum P0 idxAB "a a" 10 (by decide) (Hit.mk "d1" "a" "" 4) (by decide)⟩

/-! ## DAAT lemmas -/

theorem mem_supdate (x : String) :
    ∀ (ks s : List String), x ∈ supdate s ks ↔ x ∈ s ∨ x ∈ ks
  | [], s => by simp [supdate]
  | k :: ks, s => by
    rw [supdate, List.foldl_cons]
    have ih := mem_supdate x ks (if k ∈ s then s else s ++ [k])
    rw [supdate] at ih
    rw [ih]
    by_cases h : k ∈ s
    · rw [if_pos h, List.mem_cons]
      constructor
      · rintro (hs | hk)
        · exact Or.inl hs
        · exact Or.inr (Or.inr hk)
      · rintro (hs | hx | hk)
        · exact Or.inl hs
        · exact Or.inl (hx ▸ h)
        · exact Or.inr hk
    · rw [if_neg h, List.mem_append, List.mem_singleton, List.mem_cons]
      tauto

theorem nodup_supdate :
    ∀ (ks s : List String), s.Nodup → (supdate s ks).Nodup
  | [], _, h => h
  | k :: ks, s, h => by
    rw [supdate, List.foldl_cons]
    have step : (if k ∈ s then s else s ++ [k]).Nodup := by
      by_cases hk : k ∈ s
      · rwa [if_pos hk]
      · rw [if_neg hk, List.nodup_append]
        refine ⟨h, List.nodup_singleton k, ?_⟩
        intro a ha hak
        rw [List.mem_singleton] at hak
        exact hk (hak ▸ ha)
    have := nodup_supdate ks (if k ∈ s then s else s ++ [k]) step
    rwa [supdate] at this

theorem daatCands_aux (idx : TFIDFIndex) (x : String) :
    ∀ (terms : List String) (s : List String),
      x ∈ terms.foldl (fun s t => if dcontains idx.inverted_index t then
          supdate s (dkeys (dgetD idx.inverted_index t [])) else s) s
        ↔ x ∈ s ∨ ∃ t ∈ terms, dcontains idx.inverted_index t = true
            ∧ x ∈ dkeys (dgetD idx.inverted_index t [])
  | [], s => by simp
  | t :: terms, s => by
    rw [List.foldl_cons, daatCands_aux idx x terms _]
    by_cases h : dcontains idx.inverted_index t = true
    · rw [if_pos h, mem_supdate]
      simp only [List.mem_cons, h]
      constructor
      · rintro ((hs | hk) | hrest)
        · exact Or.inl hs
        · exact Or.inr ⟨t, Or.inl rfl, h, hk⟩
        · obtain ⟨u, hu, hc, hm⟩ := hrest
          exact Or.inr ⟨u, Or.inr hu, hc, hm⟩
      · rintro (hs | ⟨u, hu | hu, hc, hm⟩)
        · exact Or.inl (Or.inl hs)
        · exact Or.inl (Or.inr (hu ▸ hm))
        · exact Or.inr ⟨u, hu, hc, hm⟩
    · rw [if_neg h]
      simp only [List.mem_cons]
      constructor
      · rintro (hs | hrest)
        · exact Or.inl hs
        · obtain ⟨u, hu, hc, hm⟩ := hrest
          exact Or.inr ⟨u, Or.inr hu, hc, hm⟩
      · rintro (hs | ⟨u, hu | hu, hc, hm⟩)
        · exact Or.inl hs
        · exact absurd hc (hu ▸ h)
        · exact Or.inr ⟨u, hu, hc, hm⟩

theorem mem_daatCands (idx : TFIDFIndex) (terms : List String) (x : String) :
    x ∈ daatCands idx terms ↔
      ∃ t ∈ terms, dcontains idx.inverted_index t = true
        ∧ x ∈ dkeys (dgetD idx.inverted_index t []) := by
  rw [daatCands]
  exact (daatCands_aux idx x terms []).trans (by simp)

theorem nodup_daatCands (idx : TFIDFIndex) (terms : List String) :
    (daatCands idx terms).Nodup := by
  rw [daatCands]
  suffices h : ∀ (ts : List String) (s : List String), s.Nodup →
      (ts.foldl (fun s t => if dcontains idx.inverted_index t then
        supdate s (dkeys (dgetD idx.inverted_index t [])) else s) s).Nodup by
    exact h terms [] List.nodup_nil
  intro ts
  induction ts with
  | nil => exact fun s h => h
  | cons t ts ih =>
    intro s hs
    rw [List.foldl_cons]
    refine ih _ ?_
    by_cases h : dcontains idx.inverted_index t = true
    · rw [if_pos h]
      exact nodup_supdate _ _ hs
    · rwa [if_neg h]

theorem daatDocScore_eq (P : Cfg) (idx : TFIDFIndex) (terms : List String) (d : String) :
    daatDocScore P idx terms d = (terms.map (fun t => contribT P idx t d)).sum := by
  rw [daatDocScore]
  suffices h : ∀ (ts : List String) (a : ℚ),
      ts.foldl (fun sc t =>
        if dcontains idx.inverted_index t then
          match dfind? (dgetD idx.inverted_index t []) d with
          | some data => sc + calcTfidf data.1 (dgetD idx.doc_lengths d 1) (calcIdf P idx t)
          | none => sc
        else sc) a
      = a + (ts.map (fun t => contribT P idx t d)).sum by
    rw [h terms 0, zero_add]
  intro ts
  induction ts with
  | nil => simp
  | cons t ts ih =>
    intro a
    rw [List.foldl_cons, List.map_cons, List.sum_cons, ih]
    by_cases h : dcontains idx.inverted_index t = true
    · cases hf : dfind? (dgetD idx.inverted_index t []) d with
      | some v =>
        simp only [h, if_pos, hf, contribT, optContrib]
        ring
      | none =>
        simp only [h, if_pos, hf, contribT, optContrib]
        ring
    · have h' : dcontains idx.inverted_index t = false := by simpa using h
      simp only [h', Bool.false_eq_true, if_false, contribT]
      ring

theorem dfind?_map_pair (g : String → ℚ) (x : String) :
    ∀ (l : List String), l.Nodup →
      dfind? (l.map (fun d => (d, g d))) x = if x ∈ l then some (g x) else none
  | [], _ => by simp [dfind?_nil]
  | d :: l, h => by
    rw [List.nodup_cons] at h
    rw [List.map_cons, dfind?_cons, dfind?_map_pair g x l h.2]
    by_cases hd : d = x
    · subst hd
      simp
    · have hd' : ¬ (x = d) := fun hh => hd hh.symm
      simp [hd, hd']

theorem dfind?_eq_some_iff (m : Dict String ℚ) (d : String) (s : ℚ) :
    dfind? m d = some s ↔ (dcontains m d = true ∧ dgetD m d 0 = s) := by
  cases hf : dfind? m d with
  | none => simp [dcontains, hf]
  | some v =>
    simp only [dcontains, hf, Option.isSome_some, dgetD, Option.getD_some, true_and]
    exact ⟨fun h => by cases h; rfl, fun h => by rw [h]⟩

theorem daatScores_dgetD (P : Cfg) (σ : List String → List String) (idx : TFIDFIndex)
    (terms : List String)
    (hσ : (σ (daatCands idx terms)).Perm (daatCands idx terms)) (x : String) :
    dgetD (daatScores P σ idx terms) x 0 =
      (terms.map (fun t => contribT P idx t x)).sum := by
  have hnd : (σ (daatCands idx terms)).Nodup :=
    hσ.nodup_iff.mpr (nodup_daatCands idx terms)
  rw [daatScores, dgetD, dfind?_map_pair _ x _ hnd]
  by_cases hx : x ∈ σ (daatCands idx terms)
  · rw [if_pos hx, Option.getD_some, daatDocScore_eq]
  · rw [if_neg hx, Option.getD_none]
    symm
    apply List.sum_eq_zero
    intro q hq
    obtain ⟨t, ht, hqc⟩ := List.mem_map.mp hq
    have hnot : ¬ (dcontains idx.inverted_index t = true
        ∧ x ∈ dkeys (dgetD idx.inverted_index t [])) := by
      intro hand
      exact hx (hσ.mem_iff.mpr ((mem_daatCands idx terms x).mpr ⟨t, ht, hand.1, hand.2⟩))
    rw [← hqc, contribT]
    by_cases hc : dcontains idx.inverted_index t = true
    · rw [if_pos hc]
      cases hf : dfind? (dgetD idx.inverted_index t []) x with
      | none => rfl
      | some v => exact absurd ⟨hc, mem_dkeys_of_dfind? _ _ _ hf⟩ hnot
    · rw [if_neg hc]

theorem daatScores_dcontains (P : Cfg) (σ : List String → List String) (idx : TFIDFIndex)
    (terms : List String)
    (hσ : (σ (daatCands idx terms)).Perm (daatCands idx terms)) (x : String) :
    dcontains (daatScores P σ idx terms) x =
      decide (x ∈ daatCands idx terms) := by
  have hnd : (σ (daatCands idx terms)).Nodup :=
    hσ.nodup_iff.mpr (nodup_daatCands idx terms)
  rw [daatScores, dcontains, dfind?_map_pair _ x _ hnd]
  by_cases hx : x ∈ σ (daatCands idx terms)
  · rw [if_pos hx]
    simp [hσ.mem_iff.mp hx]
  · rw [if_neg hx]
    have hx' : x ∉ daatCands idx terms := fun h => hx (hσ.mem_iff.mpr h)
    simp [hx']

theorem dkeys_map_pair (g : String → ℚ) (l : List String) :
    dkeys (l.map (fun d => (d, g d))) = l := by
  rw [dkeys, List.map_map]
  exact List.map_id l

theorem taatScores_dcontains_mem (P : Cfg) (idx : TFIDFIndex) (terms : List String)
    (d : String) :
    dcontains (taatScores P idx terms) d = decide (d ∈ daatCands idx terms) := by
  rw [taatScores_dcontains]
  by_cases h : d ∈ daatCands idx terms
  · obtain ⟨t, ht, hc, hm⟩ := (mem_daatCands idx terms d).mp h
    have hany : terms.any (fun t => dcontains idx.inverted_index t
        && dcontains (dgetD idx.inverted_index t []) d) = true := by
      rw [List.any_eq_true]
      refine ⟨t, ht, ?_⟩
      rw [Bool.and_eq_true]
      exact ⟨hc, (mem_dkeys_iff_dcontains _ _).mp hm⟩
    rw [hany]
    simp [h]
  · have hany : terms.any (fun t => dcontains idx.inverted_index t
        && dcontains (dgetD idx.inverted_index t []) d) = false := by
      rw [List.any_eq_false]
      intro t ht hand
      rw [Bool.and_eq_true] at hand
      exact h ((mem_daatCands idx terms d).mpr
        ⟨t, ht, hand.1, (mem_dkeys_iff_dcontains _ _).mpr hand.2⟩)
    rw [hany]
    simp [h]

/-- The TAAT and DAAT score dictionaries hold exactly the same entries. -/
theorem scoresLists_perm (P : Cfg) (σ : List String → List String) (idx : TFIDFIndex)
    (terms : List String) (hw : WFT idx)
    (hσ : (σ (daatCands idx terms)).Perm (daatCands idx terms)) :
    List.Perm (taatScores P idx terms) (daatScores P σ idx terms) := by
  have hk1 := taatScores_nodup P idx terms
  have hk2 : (dkeys (daatScores P σ idx terms)).Nodup := by
    rw [daatScores, dkeys_map_pair]
    exact hσ.nodup_iff.mpr (nodup_daatCands idx terms)
  apply List.perm_of_nodup_nodup_toFinset_eq
  · exact List.Nodup.of_map Prod.fst hk1
  · exact List.Nodup.of_map Prod.fst hk2
  · apply Finset.ext
    rintro ⟨d, s⟩
    rw [List.mem_toFinset, List.mem_toFinset,
      mem_iff_dfind?_of_nodup _ hk1, mem_iff_dfind?_of_nodup _ hk2,
      dfind?_eq_some_iff, dfind?_eq_some_iff,
      taatScores_dcontains_mem, daatScores_dcontains P σ idx terms hσ,
      taatScores_dgetD P idx hw, daatScores_dgetD P σ idx terms hσ]

/-- C7 (counterexample): on a two-document tie, TAAT returns the documents
in accumulator insertion order (`d2` before `d1`), not ascending `doc_id`;
and iterating the candidate `set` in the reversed (equally legitimate,
hash-dependent) order makes DAAT return a different ranked list than TAAT. -/
theorem taat_ties_not_docid_ordered :
    tiesAscending (taat P0 idxTie ["common"] 10) = false
    ∧ (taat P0 idxTie ["common"] 10).map Hit.doc_id = ["d2", "d1"]
    ∧ taat P0 idxTie ["common"] 10 ≠ daat P0 (fun l => l.reverse) idxTie ["common"] 10
    ∧ ((daatCands idxTie ["common"]).reverse).Perm (daatCands idxTie ["common"]) :=
  ⟨by decide, by decide, by decide, List.reverse_perm _⟩

/-- C7 (amended): for every index state, every analyzed query-term list and
every iteration order of the candidate set, TAAT and DAAT compute identical
score maps — the same candidate documents with exactly equal scores (the
per-document sums are performed in the same term order, so they agree even
float-for-float) — and their full sorted score lists are permutations of one
another.  The ranked lists agree up to the ordering of equal-score entries,
which is resolved by internal iteration order, not by ascending `doc_id`. -/
theorem taat_daat_score_maps_equal (P : Cfg) (σ : List String → List String)
    (idx : TFIDFIndex) (terms : List String) (hw : WFT idx)
    (hσ : (σ (daatCands idx terms)).Perm (daatCands idx terms)) :
    (∀ d, dgetD (taatScores P idx terms) d 0 = dgetD (daatScores P σ idx terms) d 0)
    ∧ (∀ d, dcontains (taatScores P idx terms) d = dcontains (daatScores P σ idx terms) d)
    ∧ List.Perm (sortByScoreDesc (taatScores P idx terms))
        (sortByScoreDesc (daatScores P σ idx terms)) := by
  refine ⟨fun d => ?_, fun d => ?_, ?_⟩
  · rw [taatScores_dgetD P idx hw, daatScores_dgetD P σ idx terms hσ]
  · rw [taatScores_dcontains_mem, daatScores_dcontains P σ idx terms hσ]
  · exact ((sortByScoreDesc_perm _).trans
      (scoresLists_perm P σ idx terms hw hσ)).trans (sortByScoreDesc_perm _).symm

/-- Witness for `taat_daat_score_maps_equal` at a concrete input. -/
theorem taat_daat_score_maps_equal_witness :
    WFT idxAB
    ∧ ((fun (l : List String) => l) (daatCands idxAB ["a", "b"])).Perm
        (daatCands idxAB ["a", "b"])
    ∧ ((∀ d, dgetD (taatScores P0 idxAB ["a", "b"]) d 0 =
          dgetD (daatScores P0 (fun l => l) idxAB ["a", "b"]) d 0)
       ∧ (∀ d, dcontains (taatScores P0 idxAB ["a", "b"]) d =
          dcontains (daatScores P0 (fun l => l) idxAB ["a", "b"]) d)
       ∧ List.Perm (sortByScoreDesc (taatScores P0 idxAB ["a", "b"]))
          (sortByScoreDesc (daatScores P0 (fun l => l) idxAB ["a", "b"]))) :=
  ⟨by decide, List.Perm.refl _,
    taat_daat_score_maps_equal P0 (fun l => l) idxAB ["a", "b"] (by decide)
      (List.Perm.refl _)⟩

/-! ## Ingest invariants (C1) -/

theorem not_mem_dkeys_of_dfind?_none [DecidableEq α] (m : Dict α β) (x : α)
    (hf : dfind? m x = none) : x ∉ dkeys m := by
  intro hm
  rw [mem_dkeys_iff_dcontains, dcontains, hf] at hm
  simp at hm

theorem dgetD_dinsert_ne [DecidableEq α] (m : Dict α β) (k k' : α) (v dflt : β)
    (h : k ≠ k') : dgetD (dinsert m k v) k' dflt = dgetD m k' dflt := by
  rw [dgetD, dfind?_dinsert_ne _ _ _ _ h, dgetD]

theorem dinsert_length_of_not_contains [DecidableEq α] :
    ∀ (m : Dict α β) (k : α) (v : β), ¬ dcontains m k = true →
      (dinsert m k v).length = m.length + 1
  | [], _, _, _ => rfl
  | (a, b) :: rest, k, v, h => by
    rw [dcontains_cons] at h
    by_cases hak : a = k
    · rw [if_pos hak] at h
      simp at h
    · rw [if_neg hak] at h
      rw [dinsert_cons, if_neg hak, List.length_cons, List.length_cons,
        dinsert_length_of_not_contains rest k v h]

theorem nodup_groupPositions (tokens : List String) :
    (dkeys (groupPositions tokens)).Nodup := by
  rw [groupPositions]
  suffices h : ∀ (l : List (Nat × String)) (acc : Dict String (List Nat)),
      (dkeys acc).Nodup →
      (dkeys (l.foldl (fun acc pt => dinsert acc pt.2 (dgetD acc pt.2 [] ++ [pt.1])) acc)).Nodup by
    exact h _ [] List.nodup_nil
  intro l
  induction l with
  | nil => exact fun acc h => h
  | cons p rest ih =>
    intro acc h
    rw [List.foldl_cons]
    exact ih _ (nodup_dkeys_dinsert _ _ _ h)

/-- The joint `(inverted_index, doc_freq)` update loop of `add_document`:
effect on the `doc_freq` side. -/
theorem addFold_df (doc_id : String) (x : String) :
    ∀ (tps : Dict String (List Nat)) (ii : Dict String (Dict String (Nat × List Nat)))
      (df : Dict String Nat), (dkeys tps).Nodup →
      dgetD ((tps.foldl
        (fun (acc : Dict String (Dict String (Nat × List Nat)) × Dict String Nat) tp =>
          (dinsert acc.1 tp.1 (dinsert (dgetD acc.1 tp.1 []) doc_id (tp.2.length, tp.2)),
           dinsert acc.2 tp.1 (dgetD acc.2 tp.1 0 + 1)))
        (ii, df)).2) x 0 =
        dgetD df x 0 + (if x ∈ dkeys tps then 1 else 0)
  | [], ii, df, _ => by simp [dkeys_nil]
  | (t, ps) :: rest, ii, df, hnd => by
    have hnd' : t ∉ dkeys rest ∧ (dkeys rest).Nodup := by
      have hk : dkeys ((t, ps) :: rest) = t :: dkeys rest := rfl
      rw [hk, List.nodup_cons] at hnd
      exact hnd
    have hstep : (((t, ps) :: rest).foldl
        (fun (acc : Dict String (Dict String (Nat × List Nat)) × Dict String Nat) tp =>
          (dinsert acc.1 tp.1 (dinsert (dgetD acc.1 tp.1 []) doc_id (tp.2.length, tp.2)),
           dinsert acc.2 tp.1 (dgetD acc.2 tp.1 0 + 1)))
        (ii, df)) = rest.foldl
        (fun (acc : Dict String (Dict String (Nat × List Nat)) × Dict String Nat) tp =>
          (dinsert acc.1 tp.1 (dinsert (dgetD acc.1 tp.1 []) doc_id (tp.2.length, tp.2)),
           dinsert acc.2 tp.1 (dgetD acc.2 tp.1 0 + 1)))
        (dinsert ii t (dinsert (dgetD ii t []) doc_id (ps.length, ps)),
         dinsert df t (dgetD df t 0 + 1)) := rfl
    have hmemiff : (x ∈ dkeys ((t, ps) :: rest)) ↔ (x = t ∨ x ∈ dkeys rest) := by
      have hk : dkeys ((t, ps) :: rest) = t :: dkeys rest := rfl
      rw [hk, List.mem_cons]
    rw [hstep, addFold_df doc_id x rest _ _ hnd'.2]
    by_cases h : x = t
    · subst h
      rw [if_pos (hmemiff.mpr (Or.inl rfl)), if_neg (fun hm => hnd'.1 hm)]
      have hx : dgetD (dinsert df x (dgetD df x 0 + 1)) x 0 = dgetD df x 0 + 1 := by
        rw [dgetD, dfind?_dinsert_self]
        rfl
      rw [hx]
    · have h' : t ≠ x := fun hh => h hh.symm
      rw [dgetD_dinsert_ne _ _ _ _ _ h']
      by_cases hm : x ∈ dkeys rest
      · rw [if_pos hm, if_pos (hmemiff.mpr (Or.inr hm))]
      · rw [if_neg hm, if_neg (fun hc => (hmemiff.mp hc).elim h hm)]

/-- The joint update loop of `add_document`: effect on the posting table. -/
theorem addFold_ii (doc_id : String) (x : String) :
    ∀ (tps : Dict String (List Nat)) (ii : Dict String (Dict String (Nat × List Nat)))
      (df : Dict String Nat), (dkeys tps).Nodup →
      dfind? ((tps.foldl
        (fun (acc : Dict String (Dict String (Nat × List Nat)) × Dict String Nat) tp =>
          (dinsert acc.1 tp.1 (dinsert (dgetD acc.1 tp.1 []) doc_id (tp.2.length, tp.2)),
           dinsert acc.2 tp.1 (dgetD acc.2 tp.1 0 + 1)))
        (ii, df)).1) x =
        (match dfind? tps x with
         | some ps => some (dinsert (dgetD ii x []) doc_id (ps.length, ps))
         | none => dfind? ii x)
  | [], ii, df, _ => by simp [dfind?_nil]
  | (t, ps) :: rest, ii, df, hnd => by
    have hnd' : t ∉ dkeys rest ∧ (dkeys rest).Nodup := by
      have hk : dkeys ((t, ps) :: rest) = t :: dkeys rest := rfl
      rw [hk, List.nodup_cons] at hnd
      exact hnd
    have hstep : (((t, ps) :: rest).foldl
        (fun (acc : Dict String (Dict String (Nat × List Nat)) × Dict String Nat) tp =>
          (dinsert acc.1 tp.1 (dinsert (dgetD acc.1 tp.1 []) doc_id (tp.2.length, tp.2)),
           dinsert acc.2 tp.1 (dgetD acc.2 tp.1 0 + 1)))
        (ii, df)) = rest.foldl
        (fun (acc : Dict String (Dict String (Nat × List Nat)) × Dict String Nat) tp =>
          (dinsert acc.1 tp.1 (dinsert (dgetD acc.1 tp.1 []) doc_id (tp.2.length, tp.2)),
           dinsert acc.2 tp.1 (dgetD acc.2 tp.1 0 + 1)))
        (dinsert ii t (dinsert (dgetD ii t []) doc_id (ps.length, ps)),
         dinsert df t (dgetD df t 0 + 1)) := rfl
    rw [hstep, addFold_ii doc_id x rest _ _ hnd'.2, dfind?_cons]
    by_cases h : t = x
    · subst h
      rw [if_pos rfl]
      rw [dfind?_eq_none_of_not_mem rest t hnd'.1]
      rw [dfind?_dinsert_self]
    · rw [if_neg h]
      cases hf : dfind? rest x with
      | some qs =>
        rw [dgetD_dinsert_ne _ _ _ _ _ h]
      | none =>
        rw [dfind?_dinsert_ne _ _ _ _ h]

theorem addDocument_doc_freq (P : Cfg) (idx : TFIDFIndex) (doc_id text md x : String) :
    dgetD (addDocument P idx doc_id text md).doc_freq x 0 =
      dgetD idx.doc_freq x 0 +
        (if x ∈ dkeys (groupPositions (P.preprocess text)) then 1 else 0) := by
  rw [addDocument]
  exact addFold_df doc_id x _ _ _ (nodup_groupPositions _)

theorem addDocument_ii_find (P : Cfg) (idx : TFIDFIndex) (doc_id text md x : String) :
    dfind? (addDocument P idx doc_id text md).inverted_index x =
      (match dfind? (groupPositions (P.preprocess text)) x with
       | some ps => some (dinsert (dgetD idx.inverted_index x []) doc_id (ps.length, ps))
       | none => dfind? idx.inverted_index x) := by
  rw [addDocument]
  exact addFold_ii doc_id x _ _ _ (nodup_groupPositions _)

theorem addDocument_doc_count (P : Cfg) (idx : TFIDFIndex) (doc_id text md : String) :
    (addDocument P idx doc_id text md).doc_count = idx.doc_count + 1 := rfl

theorem InvDF_step (P : Cfg) (idx : TFIDFIndex) (seen : List String)
    (did txt md : String) (h : InvDF idx seen) (hfresh : did ∉ seen) :
    InvDF (addDocument P idx did txt md) (did :: seen) := by
  constructor
  · intro t
    rw [addDocument_doc_freq]
    cases hf : dfind? (groupPositions (P.preprocess txt)) t with
    | some ps =>
      have hmem : t ∈ dkeys (groupPositions (P.preprocess txt)) :=
        mem_dkeys_of_dfind? _ _ _ hf
      rw [if_pos hmem]
      have hpl : dgetD (addDocument P idx did txt md).inverted_index t [] =
          dinsert (dgetD idx.inverted_index t []) did (ps.length, ps) := by
        rw [dgetD, addDocument_ii_find, hf]
        rfl
      rw [hpl]
      have hnc : ¬ dcontains (dgetD idx.inverted_index t []) did = true := fun hc =>
        hfresh (h.2 t did ((mem_dkeys_iff_dcontains _ _).mpr hc))
      rw [dinsert_length_of_not_contains _ _ _ hnc, h.1 t]
    | none =>
      rw [if_neg (not_mem_dkeys_of_dfind?_none _ _ hf)]
      have hpl : dgetD (addDocument P idx did txt md).inverted_index t [] =
          dgetD idx.inverted_index t [] := by
        rw [dgetD, addDocument_ii_find, hf, dgetD]
      rw [hpl, h.1 t]
      omega
  · intro t d hd
    cases hf : dfind? (groupPositions (P.preprocess txt)) t with
    | some ps =>
      have hpl : dgetD (addDocument P idx did txt md).inverted_index t [] =
          dinsert (dgetD idx.inverted_index t []) did (ps.length, ps) := by
        rw [dgetD, addDocument_ii_find, hf]
        rfl
      rw [hpl, dkeys_dinsert] at hd
      by_cases hc : dcontains (dgetD idx.inverted_index t []) did = true
      · rw [if_pos hc] at hd
        exact List.mem_cons_of_mem did (h.2 t d hd)
      · rw [if_neg hc, List.mem_append, List.mem_singleton] at hd
        rcases hd with hd | hd
        · exact List.mem_cons_of_mem did (h.2 t d hd)
        · exact hd ▸ List.mem_cons_self did seen
    | none =>
      have hpl : dgetD (addDocument P idx did txt md).inverted_index t [] =
          dgetD idx.inverted_index t [] := by
        rw [dgetD, addDocument_ii_find, hf, dgetD]
      rw [hpl] at hd
      exact List.mem_cons_of_mem did (h.2 t d hd)

theorem InvDF_build (P : Cfg) :
    ∀ (docs : List (String × String × String)) (idx : TFIDFIndex) (seen : List String),
      InvDF idx seen → (docs.map Prod.fst).Nodup →
      (∀ i ∈ docs.map Prod.fst, i ∉ seen) →
      ∃ seen', InvDF
        (docs.foldl (fun i dd => addDocument P i dd.1 dd.2.1 dd.2.2) idx) seen'
  | [], idx, seen, h, _, _ => ⟨seen, h⟩
  | (d, t, m) :: rest, idx, seen, h, hnd, hfresh => by
    rw [List.map_cons, List.nodup_cons] at hnd
    rw [List.foldl_cons]
    refine InvDF_build P rest _ (d :: seen)
      (InvDF_step P idx seen d t m h (hfresh d (by simp))) hnd.2 ?_
    intro i hi
    rw [List.mem_cons]
    rintro (hid | hiseen)
    · exact hnd.1 (hid ▸ hi)
    · exact hfresh i (List.mem_cons_of_mem _ hi) hiseen

theorem df_le_N_step (P : Cfg) (idx : TFIDFIndex) (did txt md : String)
    (h : ∀ x, dgetD idx.doc_freq x 0 ≤ idx.doc_count) :
    ∀ x, dgetD (addDocument P idx did txt md).doc_freq x 0 ≤
      (addDocument P idx did txt md).doc_count := by
  intro x
  rw [addDocument_doc_freq, addDocument_doc_count]
  have := h x
  by_cases hm : x ∈ dkeys (groupPositions (P.preprocess txt))
  · rw [if_pos hm]
    omega
  · rw [if_neg hm]
    omega

theorem df_le_N_build (P : Cfg) :
    ∀ (docs : List (String × String × String)) (idx : TFIDFIndex),
      (∀ x, dgetD idx.doc_freq x 0 ≤ idx.doc_count) →
      ∀ x, dgetD (docs.foldl (fun i dd => addDocument P i dd.1 dd.2.1 dd.2.2) idx).doc_freq x 0
        ≤ (docs.foldl (fun i dd => addDocument P i dd.1 dd.2.1 dd.2.2) idx).doc_count
  | [], idx, h => h
  | (d, t, m) :: rest, idx, h => by
    rw [List.foldl_cons]
    exact df_le_N_build P rest _ (df_le_N_step P idx d t m h)

/-- C1 (counterexample): adding the same document (single token `a`) twice
leaves `doc_freq("a") = 2` while the posting list of `a` holds a single
document, violating `df(t) = |posting_list(t)|`. -/
theorem df_overcount_on_reindex :
    dgetD (addDocument P0 (addDocument P0 (emptyTFIDF "v1.0" "tfidf_index")
        "d" "a" "") "d" "a" "").doc_freq "a" 0 = 2
    ∧ (dgetD (addDocument P0 (addDocument P0 (emptyTFIDF "v1.0" "tfidf_index")
        "d" "a" "") "d" "a" "").inverted_index "a" []).length = 1 :=
  ⟨by decide, by decide⟩

/-- C1 (amended): `df(t) ≤ N` holds after **every** sequence of
`add_document` calls (a reused `doc_id` over-counts both sides together);
`df(t) = |posting_list(t)|` holds for every sequence of `add_document` calls
with pairwise-distinct `doc_id`s, and fails on reuse (see the
counterexample). -/
theorem df_matches_posting_lists (P : Cfg) (docs : List (String × String × String)) :
    (∀ t, dgetD (buildIndex P docs).doc_freq t 0 ≤ (buildIndex P docs).doc_count)
    ∧ ((docs.map Prod.fst).Nodup →
        ∀ t, dgetD (buildIndex P docs).doc_freq t 0 =
          (dgetD (buildIndex P docs).inverted_index t []).length) := by
  constructor
  · exact df_le_N_build P docs (emptyTFIDF "v1.0" "tfidf_index")
      (fun x => le_refl 0)
  · intro hnd t
    have hbase : InvDF (emptyTFIDF "v1.0" "tfidf_index") [] := by
      constructor
      · intro u
        rfl
      · intro u d hd
        exact absurd hd (List.not_mem_nil d)
    obtain ⟨s, hs⟩ := InvDF_build P docs (emptyTFIDF "v1.0" "tfidf_index") [] hbase hnd
      (fun i _ => List.not_mem_nil i)
    exact hs.1 t

/-- Witness for `df_matches_posting_lists` at a concrete input. -/
theorem df_matches_posting_lists_witness :
    ((([("d1", "a b", ""), ("d2", "b c", "")] :
        List (String × String × String)).map Prod.fst).Nodup)
    ∧ (∀ t, dgetD (buildIndex P0 [("d1", "a b", ""), ("d2", "b c", "")]).doc_freq t 0 ≤
        (buildIndex P0 [("d1", "a b", ""), ("d2", "b c", "")]).doc_count)
    ∧ (∀ t, dgetD (buildIndex P0 [("d1", "a b", ""), ("d2", "b c", "")]).doc_freq t 0 =
        (dgetD (buildIndex P0 [("d1", "a b", ""), ("d2", "b c", "")]).inverted_index t []).length) :=
  ⟨by decide,
    (df_matches_posting_lists P0 [("d1", "a b", ""), ("d2", "b c", "")]).1,
    (df_matches_posting_lists P0 [("d1", "a b", ""), ("d2", "b c", "")]).2 (by decide)⟩

/-! ## Phrase search (C6) -/

theorem mem_inner_implies_dcontains (ii : Dict String (Dict String (List Nat)))
    (t d : String) (h : d ∈ dkeys (dgetD ii t [])) : dcontains ii t = true := by
  by_cases hc : dcontains ii t = true
  · exact hc
  · have hn : dfind? ii t = none := (dcontains_eq_false_iff _ _).mp (by simpa using hc)
    rw [dgetD, hn] at h
    exact absurd h (List.not_mem_nil d)

theorem candGo_none (ii : Dict String (Dict String (List Nat))) :
    ∀ (ts : List String) (acc : List String), candDocs.go ii acc ts = none →
      ∃ t ∈ ts, dcontains ii t = false
  | [], acc, h => by simp [candDocs.go] at h
  | t :: ts, acc, h => by
    simp only [candDocs.go] at h
    by_cases hc : dcontains ii t = true
    · rw [if_pos hc] at h
      obtain ⟨u, hu, hcu⟩ := candGo_none ii ts _ h
      exact ⟨u, List.mem_cons_of_mem _ hu, hcu⟩
    · exact ⟨t, List.mem_cons_self _ _, by simpa using hc⟩

theorem candGo_some (ii : Dict String (Dict String (List Nat))) :
    ∀ (ts : List String) (acc r : List String), candDocs.go ii acc ts = some r →
      (∀ t ∈ ts, dcontains ii t = true)
      ∧ (∀ d, d ∈ r ↔ (d ∈ acc ∧ ∀ t ∈ ts, d ∈ dkeys (dgetD ii t [])))
      ∧ (acc.Nodup → r.Nodup)
  | [], acc, r, h => by
    simp only [candDocs.go, Option.some.injEq] at h
    subst h
    exact ⟨by simp, fun d => by simp, id⟩
  | t :: ts, acc, r, h => by
    simp only [candDocs.go] at h
    by_cases hc : dcontains ii t = true
    · rw [if_pos hc] at h
      obtain ⟨h1, h2, h3⟩ := candGo_some ii ts _ r h
      refine ⟨?_, ?_, ?_⟩
      · intro u hu
        rcases List.mem_cons.mp hu with hu | hu
        · exact hu ▸ hc
        · exact h1 u hu
      · intro d
        rw [h2 d, List.mem_filter]
        constructor
        · rintro ⟨⟨hacc, hmem⟩, hrest⟩
          refine ⟨hacc, ?_⟩
          intro u hu
          rcases List.mem_cons.mp hu with hu | hu
          · subst hu
            exact of_decide_eq_true hmem
          · exact hrest u hu
        · rintro ⟨hacc, hall⟩
          exact ⟨⟨hacc, decide_eq_true (hall t (List.mem_cons_self _ _))⟩,
            fun u hu => hall u (List.mem_cons_of_mem _ hu)⟩
      · intro hnd
        exact h3 (List.Nodup.filter _ hnd)
    · rw [if_neg hc] at h
      simp at h

theorem candGo_isSome (ii : Dict String (Dict String (List Nat))) :
    ∀ (ts : List String) (acc : List String), (∀ t ∈ ts, dcontains ii t = true) →
      ∃ r, candDocs.go ii acc ts = some r
  | [], acc, _ => ⟨acc, by simp [candDocs.go]⟩
  | t :: ts, acc, h => by
    simp only [candDocs.go]
    rw [if_pos (h t (List.mem_cons_self _ _))]
    exact candGo_isSome ii ts _ (fun u hu => h u (List.mem_cons_of_mem _ hu))

theorem checkFrom_iff (ii : Dict String (Dict String (List Nat))) (d : String) :
    ∀ (ts : List String) (n : Nat),
      checkFrom ii d n ts = true ↔
        ∀ i, (hi : i < ts.length) →
          (n + i) ∈ dgetD (dgetD ii (ts.get ⟨i, hi⟩) []) d []
  | [], n => by simp [checkFrom]
  | t :: ts, n => by
    rw [checkFrom, Bool.and_eq_true, decide_eq_true_iff, checkFrom_iff ii d ts (n + 1)]
    constructor
    · rintro ⟨h0, hrest⟩ i hi
      match i with
      | 0 => simpa using h0
      | j + 1 =>
        have hj : j < ts.length := by
          simpa using hi
        have := hrest j hj
        have harith : n + 1 + j = n + (j + 1) := by omega
        rw [harith] at this
        exact this
    · intro hall
      refine ⟨by simpa using hall 0 (by simp), ?_⟩
      intro j hj
      have := hall (j + 1) (by simpa using Nat.succ_lt_succ hj)
      have harith : n + (j + 1) = n + 1 + j := by omega
      rw [harith] at this
      exact this

theorem nodup_filterMap_docids (f : String → Option PHit)
    (hf : ∀ d h, f d = some h → h.doc_id = d) :
    ∀ (l : List String), l.Nodup → ((l.filterMap f).map PHit.doc_id).Nodup
  | [], _ => by simp
  | d :: l, h => by
    rw [List.nodup_cons] at h
    rw [List.filterMap_cons]
    cases hfd : f d with
    | none => exact nodup_filterMap_docids f hf l h.2
    | some ph =>
      rw [List.map_cons, List.nodup_cons]
      refine ⟨?_, nodup_filterMap_docids f hf l h.2⟩
      intro hmem
      obtain ⟨h', hmem', hid⟩ := List.mem_map.mp hmem
      obtain ⟨d', hd', hfd'⟩ := List.mem_filterMap.mp hmem'
      have h1 : h'.doc_id = d' := hf d' h' hfd'
      have h2 : ph.doc_id = d := hf d ph hfd
      rw [h1, h2] at hid
      exact h.1 (hid ▸ hd')

/-- C6 (confirmed): phrase search returns exactly the documents in the
intersection of all phrase-term posting lists that contain the phrase at
consecutive analyzed positions; each matching document appears at most once,
at its first matching start position, with score 1.0. -/
theorem phrase_search_correct (P : Cfg) (b : BooleanIndex) (phrase q0 : String)
    (qs : List String) (hterms : P.preprocess phrase = q0 :: qs)
    (hw : (dkeys (dgetD b.inverted_index q0 [])).Nodup) :
    (∀ d, (∃ h ∈ phraseSearch P b phrase, h.doc_id = d) ↔
      ((∀ t ∈ q0 :: qs, d ∈ dkeys (dgetD b.inverted_index t []))
       ∧ ∃ p ∈ dgetD (dgetD b.inverted_index q0 []) d [],
           ∀ i, (hi : i < qs.length) →
             (p + (i + 1)) ∈ dgetD (dgetD b.inverted_index (qs.get ⟨i, hi⟩) []) d []))
    ∧ ((phraseSearch P b phrase).map PHit.doc_id).Nodup
    ∧ (∀ h ∈ phraseSearch P b phrase, h.score = 1
        ∧ (dgetD (dgetD b.inverted_index q0 []) h.doc_id []).find?
            (fun p => checkFrom b.inverted_index h.doc_id (p + 1) qs) =
          some h.phrase_position) := by
  have hps : phraseSearch P b phrase =
      (match candDocs b.inverted_index (q0 :: qs) with
       | none => []
       | some cands => cands.filterMap (fun d =>
          ((dgetD (dgetD b.inverted_index q0 []) d []).find?
              (fun p => checkFrom b.inverted_index d (p + 1) qs)).map
            (fun p => ⟨d, (dgetD b.documents d ⟨"", ""⟩).text,
              (dgetD b.documents d ⟨"", ""⟩).metadata, 1, p⟩))) := by
    rw [phraseSearch, hterms]
  cases hcd : candDocs b.inverted_index (q0 :: qs) with
  | none =>
    rw [hcd] at hps
    refine ⟨?_, by rw [hps]; simp, by rw [hps]; simp⟩
    intro d
    rw [hps]
    simp only [List.not_mem_nil, false_and, exists_false, false_iff]
    rintro ⟨hall, -⟩
    rw [candDocs] at hcd
    by_cases hc : dcontains b.inverted_index q0 = true
    · rw [if_pos hc] at hcd
      obtain ⟨u, hu, hcu⟩ := candGo_none b.inverted_index qs _ hcd
      have := mem_inner_implies_dcontains b.inverted_index u d
        (hall u (List.mem_cons_of_mem _ hu))
      rw [this] at hcu
      exact absurd hcu (by simp)
    · exact hc ((mem_inner_implies_dcontains b.inverted_index q0 d
        (hall q0 (List.mem_cons_self _ _))))
  | some cands =>
    rw [hcd] at hps
    have hgo : candDocs.go b.inverted_index (dkeys (dgetD b.inverted_index q0 [])) qs
        = some cands := by
      rw [candDocs] at hcd
      by_cases hc : dcontains b.inverted_index q0 = true
      · rwa [if_pos hc] at hcd
      · rw [if_neg hc] at hcd
        exact absurd hcd (by simp)
    obtain ⟨hall, hmem, hnd⟩ := candGo_some b.inverted_index qs _ cands hgo
    have hcands : ∀ d, d ∈ cands ↔ ∀ t ∈ q0 :: qs, d ∈ dkeys (dgetD b.inverted_index t []) := by
      intro d
      rw [hmem d]
      constructor
      · rintro ⟨h0, hrest⟩ t ht
        rcases List.mem_cons.mp ht with ht | ht
        · exact ht ▸ h0
        · exact hrest t ht
      · intro h
        exact ⟨h q0 (List.mem_cons_self _ _), fun t ht => h t (List.mem_cons_of_mem _ ht)⟩
    refine ⟨?_, ?_, ?_⟩
    · intro d
      rw [hps]
      constructor
      · rintro ⟨h, hm, hid⟩
        obtain ⟨d', hd', hfd'⟩ := List.mem_filterMap.mp hm
        obtain ⟨p, hfind, hmk⟩ := Option.map_eq_some'.mp hfd'
        have hdd : d' = d := by rw [← hid, ← hmk]
        subst hdd
        refine ⟨(hcands d').mp hd', p, List.mem_of_find?_eq_some hfind, ?_⟩
        have hpred := List.find?_some hfind
        intro i hi
        have := (checkFrom_iff b.inverted_index d' qs (p + 1)).mp hpred i hi
        rwa [show p + 1 + i = p + (i + 1) from by omega] at this
      · rintro ⟨hkeys, p, hp, hcons⟩
        have hd : d ∈ cands := (hcands d).mpr hkeys
        have hfs : ((dgetD (dgetD b.inverted_index q0 []) d []).find?
            (fun p => checkFrom b.inverted_index d (p + 1) qs)).isSome := by
          rw [List.find?_isSome]
          refine ⟨p, hp, (checkFrom_iff b.inverted_index d qs (p + 1)).mpr ?_⟩
          intro i hi
          have := hcons i hi
          rwa [show p + (i + 1) = p + 1 + i from by omega] at this
        obtain ⟨p', hp'⟩ := Option.isSome_iff_exists.mp hfs
        refine ⟨⟨d, (dgetD b.documents d ⟨"", ""⟩).text,
          (dgetD b.documents d ⟨"", ""⟩).metadata, 1, p'⟩, ?_, rfl⟩
        rw [List.mem_filterMap]
        exact ⟨d, hd, by rw [hp']; rfl⟩
    · rw [hps]
      exact nodup_filterMap_docids _ (fun d h hfd => by
        obtain ⟨p, _, hmk⟩ := Option.map_eq_some'.mp hfd
        rw [← hmk]) cands (hnd hw)
    · intro h hm
      rw [hps] at hm
      obtain ⟨d', hd', hfd'⟩ := List.mem_filterMap.mp hm
      obtain ⟨p, hfind, hmk⟩ := Option.map_eq_some'.mp hfd'
      have hdd : h.doc_id = d' := by rw [← hmk]
      have hsc : h.score = 1 := by rw [← hmk]
      have hpp : h.phrase_position = p := by rw [← hmk]
      rw [hdd, hsc, hpp]
      exact ⟨rfl, hfind⟩

/-- Witness for `phrase_search_correct` at a concrete input. -/
theorem phrase_search_correct_witness :
    P0.preprocess "a b" = "a" :: ["b"]
    ∧ (dkeys (dgetD bIdx.inverted_index "a" [])).Nodup
    ∧ ((∀ d, (∃ h ∈ phraseSearch P0 bIdx "a b", h.doc_id = d) ↔
        ((∀ t ∈ "a" :: ["b"], d ∈ dkeys (dgetD bIdx.inverted_index t []))
         ∧ ∃ p ∈ dgetD (dgetD bIdx.inverted_index "a" []) d [],
             ∀ i, (hi : i < (["b"] : List String).length) →
               (p + (i + 1)) ∈
                 dgetD (dgetD bIdx.inverted_index ((["b"] : List String).get ⟨i, hi⟩) []) d []))
      ∧ ((phraseSearch P0 bIdx "a b").map PHit.doc_id).Nodup
      ∧ (∀ h ∈ phraseSearch P0 bIdx "a b", h.score = 1
          ∧ (dgetD (dgetD bIdx.inverted_index "a" []) h.doc_id []).find?
              (fun p => checkFrom bIdx.inverted_index h.doc_id (p + 1) ["b"]) =
            some h.phrase_position)) :=
  ⟨by decide, by decide,
    phrase_search_correct P0 bIdx "a b" "a" ["b"] (by decide) (by decide)⟩

/-! ## Boolean TERM truncation (C10) -/

theorem search_length_le (P : Cfg) (idx : TFIDFIndex) (q : String) (k : Nat) :
    (search P idx q k).length ≤ k := by
  rw [search]
  by_cases h : (P.preprocess q).isEmpty
  · simp [h]
  · rw [if_neg h, List.length_map, List.length_take]
    exact min_le_left _ _

/-- C10 (confirmed): a boolean `TERM` leaf is evaluated by running the
ranked search with the hard-coded `top_k = 10000` and collecting the
returned doc_ids; consequently the resulting doc_id set never exceeds 10000
documents, and whenever more than 10000 documents contain the term, some
document containing it is silently missing from the `TERM` set (and hence
from any boolean combination built on it). -/
theorem boolean_term_truncated_at_10000 (P : Cfg) (idx : TFIDFIndex)
    (phraseFn : String → List PHit) (x : String)
    (hnd : (dkeys (dgetD idx.inverted_index x [])).Nodup) :
    evaluate (search P idx) phraseFn idx.documents (some (termNode x)) =
      ((search P idx x 10000).map Hit.doc_id).toFinset
    ∧ (evaluate (search P idx) phraseFn idx.documents (some (termNode x))).card ≤ 10000
    ∧ (10000 < (dgetD idx.inverted_index x []).length →
        ∃ d, dcontains (dgetD idx.inverted_index x []) d = true
          ∧ d ∉ evaluate (search P idx) phraseFn idx.documents (some (termNode x))) := by
  have h1 : evaluate (search P idx) phraseFn idx.documents (some (termNode x)) =
      ((search P idx x 10000).map Hit.doc_id).toFinset := by
    rw [termNode, evaluate]
    rfl
  have h2 : (evaluate (search P idx) phraseFn idx.documents (some (termNode x))).card ≤ 10000 := by
    rw [h1]
    calc ((search P idx x 10000).map Hit.doc_id).toFinset.card
        ≤ ((search P idx x 10000).map Hit.doc_id).length := List.toFinset_card_le _
      _ = (search P idx x 10000).length := List.length_map _ _
      _ ≤ 10000 := search_length_le P idx x 10000
  refine ⟨h1, h2, ?_⟩
  intro hbig
  by_contra hno
  push_neg at hno
  have hsub : (dkeys (dgetD idx.inverted_index x [])).toFinset ⊆
      evaluate (search P idx) phraseFn idx.documents (some (termNode x)) := by
    intro d hd
    rw [List.mem_toFinset] at hd
    have hc : dcontains (dgetD idx.inverted_index x []) d = true :=
      (mem_dkeys_iff_dcontains _ _).mp hd
    exact hno d hc
  have hcard : (dkeys (dgetD idx.inverted_index x [])).toFinset.card =
      (dgetD idx.inverted_index x []).length := by
    rw [List.toFinset_card_of_nodup hnd, dkeys, List.length_map]
  have := Finset.card_le_card hsub
  rw [hcard] at this
  omega

theorem strOfLen_injective : Function.Injective strOfLen := by
  intro a b h
  have hdata : List.replicate a 'a' = List.replicate b 'a' := congrArg String.data h
  have := congrArg List.length hdata
  simpa using this

set_option maxRecDepth 4000 in
/-- Witness for `boolean_term_truncated_at_10000` at a concrete input. -/
theorem boolean_term_truncated_at_10000_witness :
    (dkeys (dgetD bigIdx.inverted_index "t" [])).Nodup
    ∧ 10000 < (dgetD bigIdx.inverted_index "t" []).length
    ∧ ∃ d, dcontains (dgetD bigIdx.inverted_index "t" []) d = true
        ∧ d ∉ evaluate (search P0 bigIdx) (fun _ => []) bigIdx.documents
            (some (termNode "t")) := by
  have hpl : dgetD bigIdx.inverted_index "t" [] = bigPostings := by
    have h1 : bigIdx.inverted_index = [("t", bigPostings)] := rfl
    rw [dgetD, h1, dfind?_cons, if_pos rfl, Option.getD_some]
  have hnd : (dkeys (dgetD bigIdx.inverted_index "t" [])).Nodup := by
    rw [hpl, bigPostings, dkeys, List.map_map]
    have : (Prod.fst ∘ fun n => (strOfLen n, ((1 : Nat), ([0] : List Nat))))
        = strOfLen := rfl
    rw [this]
    exact (List.nodup_range 10001).map strOfLen_injective
  have hlen : 10000 < (dgetD bigIdx.inverted_index "t" []).length := by
    rw [hpl, bigPostings, List.length_map, List.length_range]
    omega
  exact ⟨hnd, hlen,
    (boolean_term_truncated_at_10000 P0 bigIdx (fun _ => []) "t" hnd).2.2 hlen⟩

/-! ## Frame property (C9): no query path mutates the posting table -/

theorem ddGet_present [DecidableEq α] (m : Dict α β) (k : α) (dflt : β)
    (h : dcontains m k = true) : ddGet m k dflt = (dgetD m k dflt, m) := by
  rw [dcontains] at h
  obtain ⟨v, hv⟩ := Option.isSome_iff_exists.mp h
  rw [ddGet, hv, dgetD, hv]
  rfl

theorem dfind?_eq_some_dgetD [DecidableEq α] (m : Dict α (Dict γ β)) (k : α)
    (h : dcontains m k = true) : dfind? m k = some (dgetD m k []) := by
  rw [dcontains] at h
  obtain ⟨v, hv⟩ := Option.isSome_iff_exists.mp h
  rw [hv, dgetD, hv]
  rfl

theorem ddGet2_present {γ : Type} [DecidableEq γ] (m : Dict String (Dict String γ))
    (t d : String) (dflt : γ)
    (h1 : dcontains m t = true) (h2 : dcontains (dgetD m t []) d = true) :
    ddGet2 m t d dflt = (dgetD (dgetD m t []) d dflt, m) := by
  rw [ddGet2, ddGet_present _ _ _ h1]
  have hinner : ddGet (dgetD m t [], m).1 d dflt =
      (dgetD (dgetD m t []) d dflt, dgetD m t []) := ddGet_present _ _ _ h2
  rw [hinner]
  rw [dinsert_self_of_find _ _ _ (dfind?_eq_some_dgetD m t h1)]

/-- Folding a step function that preserves the threaded posting table (for
every element actually processed) leaves it unchanged. -/
theorem foldPairState {α β γ : Type} (ii : β) (f : α × β → γ → α × β) :
    ∀ (l : List γ), (∀ (a : α) (t : γ), t ∈ l → (f (a, ii) t).2 = ii) →
      ∀ (a : α), ((l.foldl f (a, ii)).2) = ii
  | [], _, _ => rfl
  | t :: l, hf, a => by
    rw [List.foldl_cons]
    have h := hf a t (List.mem_cons_self _ _)
    have hx : f (a, ii) t = ((f (a, ii) t).1, ii) := by
      conv_lhs => rw [← Prod.mk.eta (p := f (a, ii) t)]
      rw [h]
    rw [hx]
    exact foldPairState ii f l (fun a u hu => hf a u (List.mem_cons_of_mem _ hu)) _

theorem searchII_state (P : Cfg) (idx : TFIDFIndex) (q : String) (k : Nat) :
    (searchII P idx q k).2 = idx.inverted_index := by
  rw [searchII]
  by_cases h : (P.preprocess q).isEmpty
  · rw [if_pos h]
  · rw [if_neg h]
    refine foldPairState idx.inverted_index _ (P.preprocess q) ?_ []
    intro a t _
    dsimp only
    by_cases hc : dcontains idx.inverted_index t = true
    · rw [if_pos hc, ddGet_present _ _ _ hc]
    · rw [if_neg hc]

theorem taatII_state (P : Cfg) (idx : TFIDFIndex) (terms : List String) (k : Nat) :
    (taatII P idx terms k).2 = idx.inverted_index := by
  rw [taatII]
  refine foldPairState idx.inverted_index _ terms ?_ []
  intro a t _
  dsimp only
  by_cases hc : dcontains idx.inverted_index t = true
  · rw [if_pos hc, ddGet_present _ _ _ hc]
  · rw [if_neg hc]

theorem daatII_state (P : Cfg) (σ : List String → List String) (idx : TFIDFIndex)
    (terms : List String) (k : Nat) :
    (daatII P σ idx terms k).2 = idx.inverted_index := by
  rw [daatII]
  dsimp only
  have hcand : ∀ (a : List String) (t : String), t ∈ terms →
      (((fun (acc : List String × Dict String (Dict String (Nat × List Nat))) t =>
        if dcontains acc.2 t then
          let pl := ddGet acc.2 t []
          (supdate acc.1 (dkeys pl.1), pl.2)
        else acc)) (a, idx.inverted_index) t).2 = idx.inverted_index := by
    intro a t _
    dsimp only
    by_cases hc : dcontains idx.inverted_index t = true
    · rw [if_pos hc, ddGet_present _ _ _ hc]
    · rw [if_neg hc]
  have h1 : (terms.foldl (fun (acc : List String × Dict String (Dict String (Nat × List Nat))) t =>
        if dcontains acc.2 t then
          let pl := ddGet acc.2 t []
          (supdate acc.1 (dkeys pl.1), pl.2)
        else acc) ([], idx.inverted_index)).2 = idx.inverted_index :=
    foldPairState idx.inverted_index _ terms hcand []
  rw [h1]
  have hinner : ∀ (d : String) (q : ℚ) (t : String), t ∈ terms →
      (((fun (a : ℚ × Dict String (Dict String (Nat × List Nat))) t =>
        if dcontains a.2 t then
          let pl := ddGet a.2 t []
          if dcontains pl.1 d then
            let v := ddGet2 pl.2 t d (0, [])
            (a.1 + calcTfidf v.1.1 (dgetD idx.doc_lengths d 1) (calcIdf P idx t), v.2)
          else (a.1, pl.2)
        else a)) (q, idx.inverted_index) t).2 = idx.inverted_index := by
    intro d q t _
    dsimp only
    by_cases hc : dcontains idx.inverted_index t = true
    · rw [if_pos hc, ddGet_present _ _ _ hc]
      dsimp only
      by_cases hd : dcontains (dgetD idx.inverted_index t []) d = true
      · rw [if_pos hd, ddGet2_present _ _ _ _ hc hd]
      · rw [if_neg hd]
    · rw [if_neg hc]
  refine foldPairState idx.inverted_index _ _ ?_ []
  intro a d hd
  dsimp only
  exact foldPairState idx.inverted_index _ terms (fun q t ht => hinner d q t ht) 0

theorem candGoII_eq (ii : Dict String (Dict String (List Nat))) :
    ∀ (ts : List String) (acc : List String),
      candLoopII.goII ii acc ts = (candDocs.go ii acc ts, ii)
  | [], acc => by simp [candLoopII.goII, candDocs.go]
  | t :: ts, acc => by
    simp only [candLoopII.goII, candDocs.go]
    by_cases hc : dcontains ii t = true
    · rw [if_pos hc, if_pos hc, ddGet_present _ _ _ hc]
      exact candGoII_eq ii ts _
    · rw [if_neg hc, if_neg hc]

theorem candLoopII_eq (ii : Dict String (Dict String (List Nat)))
    (terms : List String) :
    candLoopII ii terms = (candDocs ii terms, ii) := by
  cases terms with
  | nil => rfl
  | cons t ts =>
    simp only [candLoopII, candDocs]
    by_cases hc : dcontains ii t = true
    · rw [if_pos hc, if_pos hc, ddGet_present _ _ _ hc]
      exact candGoII_eq ii ts _
    · rw [if_neg hc, if_neg hc]

theorem checkFromII_state (d : String) (ii : Dict String (Dict String (List Nat))) :
    ∀ (ts : List String) (n : Nat),
      (∀ t ∈ ts, dcontains ii t = true ∧ dcontains (dgetD ii t []) d = true) →
      (checkFromII d ii n ts).2 = ii
  | [], _, _ => rfl
  | t :: ts, n, h => by
    simp only [checkFromII]
    have ht := h t (List.mem_cons_self _ _)
    rw [ddGet2_present _ _ _ _ ht.1 ht.2]
    dsimp only
    by_cases hp : n ∈ dgetD (dgetD ii t []) d []
    · rw [if_pos hp]
      exact checkFromII_state d ii ts (n + 1)
        (fun u hu => h u (List.mem_cons_of_mem _ hu))
    · rw [if_neg hp]

theorem scanII_state (d : String) (rest : List String)
    (ii : Dict String (Dict String (List Nat)))
    (h : ∀ t ∈ rest, dcontains ii t = true ∧ dcontains (dgetD ii t []) d = true) :
    ∀ (ps : List Nat), (scanII d rest ii ps).2 = ii
  | [] => rfl
  | p :: ps => by
    simp only [scanII]
    have hc := checkFromII_state d ii rest (p + 1) h
    have hx : checkFromII d ii (p + 1) rest =
        ((checkFromII d ii (p + 1) rest).1, ii) := by
      conv_lhs => rw [← Prod.mk.eta (p := checkFromII d ii (p + 1) rest)]
      rw [hc]
    rw [hx]
    dsimp only
    by_cases hb : (checkFromII d ii (p + 1) rest).1 = true
    · rw [if_pos hb]
    · rw [if_neg hb]
      exact scanII_state d rest ii h ps

theorem phraseII_state (P : Cfg) (docs : Dict String DocRec)
    (ii : Dict String (Dict String (List Nat))) (phrase : String) :
    (phraseII P docs ii phrase).2 = ii := by
  rw [phraseII]
  split
  · rfl
  · next t0 rest heq =>
    rw [candLoopII_eq]
    cases hcd : candDocs ii (t0 :: rest) with
    | none => rfl
    | some cands =>
      dsimp only
      have hall : ∀ t ∈ t0 :: rest, dcontains ii t = true := by
        rw [candDocs] at hcd
        by_cases hc : dcontains ii t0 = true
        · rw [if_pos hc] at hcd
          have := (candGo_some ii rest _ cands hcd).1
          intro u hu
          rcases List.mem_cons.mp hu with hu | hu
          · exact hu ▸ hc
          · exact this u hu
        · rw [if_neg hc] at hcd
          exact absurd hcd (by simp)
      have hmem : ∀ d ∈ cands, ∀ t ∈ t0 :: rest, d ∈ dkeys (dgetD ii t []) := by
        rw [candDocs] at hcd
        by_cases hc : dcontains ii t0 = true
        · rw [if_pos hc] at hcd
          intro d hd u hu
          have h2 := ((candGo_some ii rest _ cands hcd).2.1 d).mp hd
          rcases List.mem_cons.mp hu with hu | hu
          · exact hu ▸ h2.1
          · exact h2.2 u hu
        · rw [if_neg hc] at hcd
          exact absurd hcd (by simp)
      refine foldPairState ii _ cands ?_ []
      intro a d hd
      dsimp only
      have ht0 : dcontains ii t0 = true := hall t0 (List.mem_cons_self _ _)
      have hd0 : dcontains (dgetD ii t0 []) d = true :=
        (mem_dkeys_iff_dcontains _ _).mp (hmem d hd t0 (List.mem_cons_self _ _))
      rw [ddGet2_present _ _ _ _ ht0 hd0]
      dsimp only
      have hrest : ∀ t ∈ rest, dcontains ii t = true
          ∧ dcontains (dgetD ii t []) d = true := fun t ht =>
        ⟨hall t (List.mem_cons_of_mem _ ht),
         (mem_dkeys_iff_dcontains _ _).mp (hmem d hd t (List.mem_cons_of_mem _ ht))⟩
      have hsc := scanII_state d rest ii hrest (dgetD (dgetD ii t0 []) d [])
      have hx : scanII d rest ii (dgetD (dgetD ii t0 []) d []) =
          ((scanII d rest ii (dgetD (dgetD ii t0 []) d [])).1, ii) := by
        conv_lhs => rw [← Prod.mk.eta (p := scanII d rest ii (dgetD (dgetD ii t0 []) d []))]
        rw [hsc]
      rw [hx]
      cases (scanII d rest ii (dgetD (dgetD ii t0 []) d [])).1 with
      | some p => rfl
      | none => rfl

theorem bsearchII_state (P : Cfg) (docs : Dict String DocRec)
    (ii : Dict String (Dict String (List Nat))) (q : String) (k : Nat) :
    (bsearchII P docs ii q k).2 = ii := by
  rw [bsearchII]
  by_cases h : (P.preprocess q).isEmpty
  · rw [if_pos h]
  · rw [if_neg h]
    rw [candLoopII_eq]
    cases candDocs ii (P.preprocess q) with
    | none => rfl
    | some cands => rfl

theorem evaluateII_state (P : Cfg) (docs : Dict String DocRec) :
    ∀ (n : Option QueryNode) (ii : Dict String (Dict String (List Nat))),
      (evaluateII P docs n ii).2 = ii
  | none, ii => by simp [evaluateII]
  | some (QueryNode.node none v l r), ii => by
    simp only [evaluateII]
    exact bsearchII_state P docs ii (v.getD "") 10000
  | some (QueryNode.node (some QOp.PHRASE) v l r), ii => by
    simp only [evaluateII]
    exact phraseII_state P docs ii (v.getD "")
  | some (QueryNode.node (some QOp.NOT) v l r), ii => by
    simp only [evaluateII]
    exact evaluateII_state P docs l ii
  | some (QueryNode.node (some QOp.AND) v l r), ii => by
    simp only [evaluateII]
    rw [evaluateII_state P docs l ii]
    exact evaluateII_state P docs r ii
  | some (QueryNode.node (some QOp.OR) v l r), ii => by
    simp only [evaluateII]
    rw [evaluateII_state P docs l ii]
    exact evaluateII_state P docs r ii

/-- C9 (confirmed): no query path mutates the posting table.  Every
`defaultdict` subscript on the ranked, TAAT, DAAT, phrase and boolean
evaluation paths is dominated by a membership guard (or by the candidate
intersection), so replaying each path with auto-vivification made explicit
returns the inverted index unchanged — the set of indexed terms and every
posting list are exactly what they were before the query. -/
theorem queries_preserve_posting_table :
    (∀ (P : Cfg) (idx : TFIDFIndex) (q : String) (k : Nat),
      (searchII P idx q k).2 = idx.inverted_index)
    ∧ (∀ (P : Cfg) (idx : TFIDFIndex) (terms : List String) (k : Nat),
      (taatII P idx terms k).2 = idx.inverted_index)
    ∧ (∀ (P : Cfg) (σ : List String → List String) (idx : TFIDFIndex)
        (terms : List String) (k : Nat),
      (daatII P σ idx terms k).2 = idx.inverted_index)
    ∧ (∀ (P : Cfg) (docs : Dict String DocRec)
        (ii : Dict String (Dict String (List Nat))) (phrase : String),
      (phraseII P docs ii phrase).2 = ii)
    ∧ (∀ (P : Cfg) (docs : Dict String DocRec)
        (ii : Dict String (Dict String (List Nat))) (q : String) (k : Nat),
      (bsearchII P docs ii q k).2 = ii)
    ∧ (∀ (P : Cfg) (docs : Dict String DocRec) (n : Option QueryNode)
        (ii : Dict String (Dict String (List Nat))),
      (evaluateII P docs n ii).2 = ii) :=
  ⟨searchII_state, taatII_state, daatII_state, phraseII_state, bsearchII_state,
    evaluateII_state⟩


end WebCrawler